import Mathlib

/-!
Verification of the merge-path partitioned SpMV of `cpu_spmv.cpp`.

The C++ source is shallowly embedded below.  Array parameters of the C
functions become functions out of `Nat` (C pointer indexing `p[i]` becomes
application `p i`); the signed C index type `int` is modeled by `Nat`
because every index value occurring in the modeled executions is
non-negative and far below 2^31, and the C expressions `max(e, 0)` /
`e - k` on those values coincide with truncated `Nat` subtraction.
Floating point values are modeled by exact rationals `ℚ`, i.e. addition is
treated as exact associative arithmetic.  The `omp parallel for` region of
`OmpMergeCsrmv` is modeled as a sequential loop over thread ids: distinct
threads write disjoint parts of `vector_y_out` and private carry slots, so
any interleaving computes the state reached by the sequential loop.
-/

namespace MergeSpmv

/-- Pointwise function update, modeling a store `p[i] = v` into a C array. -/
def upd {α : Type} (f : Nat → α) (i : Nat) (v : α) : Nat → α :=
  fun j => if j = i then v else f j

theorem upd_same {α : Type} (f : Nat → α) (i : Nat) (v : α) : upd f i v i = v := by
  simp [upd]

theorem upd_other {α : Type} (f : Nat → α) (i : Nat) (v : α) (j : Nat) (h : j ≠ i) :
    upd f i v j = f j := by
  simp [upd, h]

/-- Binary-search loop of `MergePathSearch` (source lines 234-241).
`a` is list A, `b` is list B, both read-only.  The C pivot
`(x_min + x_max) >> 1` is floor division by two of non-negative values. -/
def mpLoop (a b : Nat → Nat) (diagonal : Nat) (x_min x_max : Nat) : Nat :=
  if x_min < x_max then
    if a ((x_min + x_max) / 2) ≤ b (diagonal - (x_min + x_max) / 2 - 1) then
      mpLoop a b diagonal ((x_min + x_max) / 2 + 1) x_max
    else
      mpLoop a b diagonal x_min ((x_min + x_max) / 2)
  else x_min
termination_by x_max - x_min
decreasing_by
  all_goals omega

/-- `MergePathSearch` (source lines 223-245): the initial clamps
`x_min = max(diagonal - b_len, 0)` and `x_max = min(diagonal, a_len)`,
the binary-search loop, and the final coordinate
`(min(x_min, a_len), diagonal - x_min)`. -/
def mergePathSearch (diagonal : Nat) (a b : Nat → Nat) (a_len b_len : Nat) : Nat × Nat :=
  let x_min := diagonal - b_len
  let x_max := min diagonal a_len
  let r := mpLoop a b diagonal x_min x_max
  (min r a_len, diagonal - r)

/-- Merge items per thread (source line 362):
`(num_merge_items + num_threads - 1) / num_threads`. -/
def itemsPerThread (num_threads num_merge_items : Nat) : Nat :=
  (num_merge_items + num_threads - 1) / num_threads

/-- Starting diagonal of a thread (source line 365):
`min(items_per_thread * tid, num_merge_items)`. -/
def startDiagonal (num_threads num_merge_items tid : Nat) : Nat :=
  min (itemsPerThread num_threads num_merge_items * tid) num_merge_items

/-- Ending diagonal of a thread (source line 366):
`min(start_diagonal + items_per_thread, num_merge_items)`. -/
def endDiagonal (num_threads num_merge_items tid : Nat) : Nat :=
  min (startDiagonal num_threads num_merge_items tid +
    itemsPerThread num_threads num_merge_items) num_merge_items

/-- Per-thread body of `OmpMergePartitionMatrix` (source lines 355-370):
the two merge-path searches of thread `tid`, with list A the shifted row
offsets `row_offsets + 1` and list B the counting iterator starting at 0. -/
def partitionCoords (num_threads num_rows num_nonzeros : Nat) (row_offsets : Nat → Nat)
    (tid : Nat) : (Nat × Nat) × (Nat × Nat) :=
  (mergePathSearch (startDiagonal num_threads (num_rows + num_nonzeros) tid)
      (fun i => row_offsets (i + 1)) (fun i => i) num_rows num_nonzeros,
   mergePathSearch (endDiagonal num_threads (num_rows + num_nonzeros) tid)
      (fun i => row_offsets (i + 1)) (fun i => i) num_rows num_nonzeros)

/-- `OmpMergePartitionMatrix` (source lines 346-371): fills
`thread_coords[tid]` and `thread_coord_ends[tid]` for every thread id;
modeled as the pair of maps from thread id to coordinate. -/
def ompMergePartitionMatrix (num_threads num_rows num_nonzeros : Nat)
    (row_offsets : Nat → Nat) : (Nat → Nat × Nat) × (Nat → Nat × Nat) :=
  (fun tid => (partitionCoords num_threads num_rows num_nonzeros row_offsets tid).1,
   fun tid => (partitionCoords num_threads num_rows num_nonzeros row_offsets tid).2)

/-- Inner accumulation loop shared by `SpmvGold` (source lines 268-274) and
`OmpMergeCsrmv` (source lines 317-320 and 327-330): starting from offset
`cy` and accumulator `acc`, while `cy < hi` add
`values[cy] * vector_x[column_indices[cy]]` and advance `cy`.  Returns the
final accumulator together with the final offset. -/
def innerLoop (values : Nat → ℚ) (column_indices : Nat → Nat) (vector_x : Nat → ℚ)
    (cy hi : Nat) (acc : ℚ) : ℚ × Nat :=
  if cy < hi then
    innerLoop values column_indices vector_x (cy + 1) hi
      (acc + values cy * vector_x (column_indices cy))
  else (acc, cy)
termination_by hi - cy
decreasing_by
  all_goals omega

/-- Whole-rows loop of one thread of `OmpMergeCsrmv` (source lines 314-323):
for `cx` from the thread's start row up to (excluding) its end row `ex`,
accumulate the remaining nonzeros of row `cx` (offsets below
`row_offsets[cx + 1]`) and store the total into `y[cx]`.  Returns the
updated `y` and the final nonzero offset. -/
def consumeRows (row_offsets : Nat → Nat) (column_indices : Nat → Nat)
    (values vector_x : Nat → ℚ) (cx ex cy : Nat) (y : Nat → ℚ) : (Nat → ℚ) × Nat :=
  if cx < ex then
    consumeRows row_offsets column_indices values vector_x (cx + 1) ex
      (innerLoop values column_indices vector_x cy (row_offsets (cx + 1)) 0).2
      (upd y cx (innerLoop values column_indices vector_x cy (row_offsets (cx + 1)) 0).1)
  else (y, cy)
termination_by ex - cx
decreasing_by
  all_goals omega

/-- Body of one thread of `OmpMergeCsrmv` (source lines 311-334): consume
whole rows, then the partial portion of the thread's last row, and return
the updated `y` together with the carry-out pair
`(thread_coord_end.x, running_total)`. -/
def threadBody (row_offsets : Nat → Nat) (column_indices : Nat → Nat)
    (values vector_x : Nat → ℚ) (tc tce : Nat × Nat) (y : Nat → ℚ) :
    (Nat → ℚ) × Nat × ℚ :=
  ((consumeRows row_offsets column_indices values vector_x tc.1 tce.1 tc.2 y).1,
   tce.1,
   (innerLoop values column_indices vector_x
      (consumeRows row_offsets column_indices values vector_x tc.1 tce.1 tc.2 y).2
      tce.2 0).1)

/-- The `omp parallel for` region of `OmpMergeCsrmv` (source lines 308-335),
modeled as a sequential loop over thread ids (threads write disjoint rows of
`y` and private carry slots, so the join state is order-independent).
Returns the updated `y` and the two carry-out arrays. -/
def threadsLoop (tcs tces : Nat → Nat × Nat) (row_offsets : Nat → Nat)
    (column_indices : Nat → Nat) (values vector_x : Nat → ℚ)
    (tid num_threads : Nat) (y : Nat → ℚ) (row_carry_out : Nat → Nat)
    (value_carry_out : Nat → ℚ) : (Nat → ℚ) × (Nat → Nat) × (Nat → ℚ) :=
  if tid < num_threads then
    threadsLoop tcs tces row_offsets column_indices values vector_x (tid + 1) num_threads
      (threadBody row_offsets column_indices values vector_x (tcs tid) (tces tid) y).1
      (upd row_carry_out tid
        (threadBody row_offsets column_indices values vector_x (tcs tid) (tces tid) y).2.1)
      (upd value_carry_out tid
        (threadBody row_offsets column_indices values vector_x (tcs tid) (tces tid) y).2.2)
  else (y, row_carry_out, value_carry_out)
termination_by num_threads - tid
decreasing_by
  all_goals omega

/-- Serial carry-out fix-up of `OmpMergeCsrmv` (source lines 338-342): for
`tid` from 0 while `tid < tlast` (called with `tlast = num_threads - 1`),
if `row_carry_out[tid] < num_rows` then add `value_carry_out[tid]` into
`y[row_carry_out[tid]]`. -/
def fixupLoop (num_rows : Nat) (row_carry_out : Nat → Nat) (value_carry_out : Nat → ℚ)
    (tid tlast : Nat) (y : Nat → ℚ) : Nat → ℚ :=
  if tid < tlast then
    fixupLoop num_rows row_carry_out value_carry_out (tid + 1) tlast
      (if row_carry_out tid < num_rows then
        upd y (row_carry_out tid) (y (row_carry_out tid) + value_carry_out tid)
      else y)
  else y
termination_by tlast - tid
decreasing_by
  all_goals omega

/-- `OmpMergeCsrmv` (source lines 292-343): the parallel region followed by
the serial fix-up.  The uninitialized stack arrays `row_carry_out[256]` and
`value_carry_out[256]` are modeled by the arbitrary initial contents
`rc0` and `vc0`. -/
def ompMergeCsrmv (tcs tces : Nat → Nat × Nat) (num_threads num_rows _num_nonzeros : Nat)
    (row_offsets : Nat → Nat) (column_indices : Nat → Nat)
    (values vector_x : Nat → ℚ) (y : Nat → ℚ) (rc0 : Nat → Nat) (vc0 : Nat → ℚ) :
    Nat → ℚ :=
  fixupLoop num_rows
    (threadsLoop tcs tces row_offsets column_indices values vector_x 0 num_threads y rc0 vc0).2.1
    (threadsLoop tcs tces row_offsets column_indices values vector_x 0 num_threads y rc0 vc0).2.2
    0 (num_threads - 1)
    (threadsLoop tcs tces row_offsets column_indices values vector_x 0 num_threads y rc0 vc0).1

/-- Row loop of `SpmvGold` (source lines 265-276). -/
def spmvGoldLoop (num_rows : Nat) (row_offsets : Nat → Nat) (column_indices : Nat → Nat)
    (values vector_x : Nat → ℚ) (row : Nat) (y : Nat → ℚ) : Nat → ℚ :=
  if row < num_rows then
    spmvGoldLoop num_rows row_offsets column_indices values vector_x (row + 1)
      (upd y row
        (innerLoop values column_indices vector_x (row_offsets row)
          (row_offsets (row + 1)) 0).1)
  else y
termination_by num_rows - row
decreasing_by
  all_goals omega

/-- `SpmvGold` (source lines 257-277): the serial reference SpMV. -/
def spmvGold (num_rows : Nat) (row_offsets : Nat → Nat) (column_indices : Nat → Nat)
    (values vector_x : Nat → ℚ) (y : Nat → ℚ) : Nat → ℚ :=
  spmvGoldLoop num_rows row_offsets column_indices values vector_x 0 y

/-- Exact sum `Σ values[j] * vector_x[column_indices[j]]` over `j ∈ [lo, hi)`;
the mathematical value computed by `innerLoop` under exact arithmetic. -/
def partialSum (values : Nat → ℚ) (column_indices : Nat → Nat) (vector_x : Nat → ℚ)
    (lo hi : Nat) : ℚ :=
  if lo < hi then
    values lo * vector_x (column_indices lo) + partialSum values column_indices vector_x (lo + 1) hi
  else 0
termination_by hi - lo
decreasing_by
  all_goals omega

/-- Sum of the carry values of threads `t ∈ [tid, tlast)` whose carry row is
`i`; the total the fix-up loop adds into `y[i]`. -/
def carrySum (row_carry_out : Nat → Nat) (value_carry_out : Nat → ℚ) (i : Nat)
    (tid tlast : Nat) : ℚ :=
  if tid < tlast then
    (if row_carry_out tid = i then value_carry_out tid else 0) +
      carrySum row_carry_out value_carry_out i (tid + 1) tlast
  else 0
termination_by tlast - tid
decreasing_by
  all_goals omega

/-- Bounds-checked read of a `ℚ` array of extent `len`. -/
def readQ (len : Nat) (f : Nat → ℚ) (i : Nat) : Option ℚ :=
  if i < len then some (f i) else none

/-- Bounds-checked read of a `Nat` array of extent `len`. -/
def readN (len : Nat) (f : Nat → Nat) (i : Nat) : Option Nat :=
  if i < len then some (f i) else none

/-- Bounds-checked store into a `ℚ` array of extent `len`. -/
def writeQ (len : Nat) (y : Nat → ℚ) (i : Nat) (v : ℚ) : Option (Nat → ℚ) :=
  if i < len then some (upd y i v) else none

/-- Bounds-checked `innerLoop`: the reads `values[cy]` and
`column_indices[cy]` must land in `[0, nnz)`. -/
def innerLoopChk (nnz : Nat) (values : Nat → ℚ) (column_indices : Nat → Nat)
    (vector_x : Nat → ℚ) (cy hi : Nat) (acc : ℚ) : Option (ℚ × Nat) :=
  if cy < hi then
    (readQ nnz values cy).bind fun v =>
      (readN nnz column_indices cy).bind fun c =>
        innerLoopChk nnz values column_indices vector_x (cy + 1) hi
          (acc + v * vector_x c)
  else some (acc, cy)
termination_by hi - cy
decreasing_by
  all_goals omega

/-- Bounds-checked whole-rows loop: the store `y[cx]` must land in
`[0, num_rows)`. -/
def consumeRowsChk (nnz num_rows : Nat) (row_offsets : Nat → Nat)
    (column_indices : Nat → Nat) (values vector_x : Nat → ℚ)
    (cx ex cy : Nat) (y : Nat → ℚ) : Option ((Nat → ℚ) × Nat) :=
  if cx < ex then
    (innerLoopChk nnz values column_indices vector_x cy (row_offsets (cx + 1)) 0).bind fun r =>
      (writeQ num_rows y cx r.1).bind fun y2 =>
        consumeRowsChk nnz num_rows row_offsets column_indices values vector_x
          (cx + 1) ex r.2 y2
  else some (y, cy)
termination_by ex - cx
decreasing_by
  all_goals omega

/-- Bounds-checked body of one thread of `OmpMergeCsrmv`. -/
def threadBodyChk (nnz num_rows : Nat) (row_offsets : Nat → Nat)
    (column_indices : Nat → Nat) (values vector_x : Nat → ℚ)
    (tc tce : Nat × Nat) (y : Nat → ℚ) : Option ((Nat → ℚ) × Nat × ℚ) :=
  (consumeRowsChk nnz num_rows row_offsets column_indices values vector_x
      tc.1 tce.1 tc.2 y).bind fun r =>
    (innerLoopChk nnz values column_indices vector_x r.2 tce.2 0).bind fun t =>
      some (r.1, tce.1, t.1)

/-- Bounds-checked thread loop: the stores `row_carry_out[tid]` and
`value_carry_out[tid]` must land in the fixed 256-slot stack arrays
(source lines 305-306 and 333-334). -/
def threadsLoopChk (tcs tces : Nat → Nat × Nat) (nnz num_rows : Nat)
    (row_offsets : Nat → Nat) (column_indices : Nat → Nat)
    (values vector_x : Nat → ℚ) (tid num_threads : Nat) (y : Nat → ℚ)
    (row_carry_out : Nat → Nat) (value_carry_out : Nat → ℚ) :
    Option ((Nat → ℚ) × (Nat → Nat) × (Nat → ℚ)) :=
  if tid < num_threads then
    (threadBodyChk nnz num_rows row_offsets column_indices values vector_x
        (tcs tid) (tces tid) y).bind fun r =>
      if tid < 256 then
        threadsLoopChk tcs tces nnz num_rows row_offsets column_indices values vector_x
          (tid + 1) num_threads r.1 (upd row_carry_out tid r.2.1)
          (upd value_carry_out tid r.2.2)
      else none
  else some (y, row_carry_out, value_carry_out)
termination_by num_threads - tid
decreasing_by
  all_goals omega

/-- Bounds-checked fix-up loop: the reads `row_carry_out[tid]` and
`value_carry_out[tid]` must land in the 256-slot stack arrays; the store
into `y` is guarded by `row_carry_out[tid] < num_rows` as in the source. -/
def fixupLoopChk (num_rows : Nat) (row_carry_out : Nat → Nat)
    (value_carry_out : Nat → ℚ) (tid tlast : Nat) (y : Nat → ℚ) :
    Option (Nat → ℚ) :=
  if tid < tlast then
    if tid < 256 then
      fixupLoopChk num_rows row_carry_out value_carry_out (tid + 1) tlast
        (if row_carry_out tid < num_rows then
          upd y (row_carry_out tid) (y (row_carry_out tid) + value_carry_out tid)
        else y)
    else none
  else some y
termination_by tlast - tid
decreasing_by
  all_goals omega

/-- Bounds-checked `OmpMergeCsrmv`: returns `none` exactly when some array
access of the kernel is out of bounds. -/
def ompMergeCsrmvChk (tcs tces : Nat → Nat × Nat) (num_threads num_rows nnz : Nat)
    (row_offsets : Nat → Nat) (column_indices : Nat → Nat)
    (values vector_x : Nat → ℚ) (y : Nat → ℚ) (rc0 : Nat → Nat) (vc0 : Nat → ℚ) :
    Option (Nat → ℚ) :=
  (threadsLoopChk tcs tces nnz num_rows row_offsets column_indices values vector_x
      0 num_threads y rc0 vc0).bind fun r =>
    fixupLoopChk num_rows r.2.1 r.2.2 0 (num_threads - 1) r.1

/-- Outcome of the matrix-market branch of the driver `RunTests`. -/
inductive DriverStep where
  /-- The driver prints `Trivial dataset` and calls `exit(0)`. -/
  | trivialExit : DriverStep
  /-- The driver goes on to run the benchmark kernels. -/
  | runBenchmarks : DriverStep
deriving DecidableEq

/-- Dispatch of `RunTests` on a matrix loaded from a matrix-market file
(source lines 861-865): `exit(0)` with a `Trivial dataset` report when
`num_rows == 1 || num_cols == 1 || num_nonzeros == 1`, otherwise the
benchmarks run. -/
def runTestsMtxDispatch (num_rows num_cols num_nonzeros : Int) : DriverStep :=
  if num_rows = 1 ∨ num_cols = 1 ∨ num_nonzeros = 1 then .trivialExit
  else .runBenchmarks

/-- A locally non-decreasing row-offsets array is globally non-decreasing
on indices up to `m`. -/
theorem ro_mono_of_local {m : Nat} {ro : Nat → Nat} (h : ∀ i, i < m → ro i ≤ ro (i + 1)) :
    ∀ j, j ≤ m → ∀ i, i ≤ j → ro i ≤ ro j := by
  intro j
  induction j with
  | zero =>
    intro _ i hi
    have hz : i = 0 := by omega
    rw [hz]
  | succ n ih =>
    intro hjm i hi
    rcases Nat.eq_or_lt_of_le hi with he | hlt
    · rw [he]
    · have h1 : ro i ≤ ro n := ih (by omega) i (by omega)
      have h2 : ro n ≤ ro (n + 1) := h n (by omega)
      omega

/-- The binary-search loop on an already-empty interval returns `x_min`. -/
theorem mpLoop_refl (a b : Nat → Nat) (d x : Nat) : mpLoop a b d x x = x := by
  rw [mpLoop]
  simp

/-- Loop-invariant characterization of `mpLoop` on the shifted row-offsets /
counting-iterator instance: the result stays inside the search interval,
satisfies `row_offsets[r] ≤ d - r`, and either hit the fixed top bound `X0`
or is followed by an index violating the predicate. -/
theorem mpLoop_char (ro : Nat → Nat) (d : Nat) :
    ∀ fuel x_min x_max X0, x_max - x_min ≤ fuel → x_min ≤ x_max →
      ro x_min ≤ d - x_min →
      (x_max = X0 ∨ ¬ ro (x_max + 1) ≤ d - (x_max + 1)) →
      x_min ≤ mpLoop (fun i => ro (i + 1)) (fun j => j) d x_min x_max ∧
      mpLoop (fun i => ro (i + 1)) (fun j => j) d x_min x_max ≤ x_max ∧
      ro (mpLoop (fun i => ro (i + 1)) (fun j => j) d x_min x_max) ≤
        d - mpLoop (fun i => ro (i + 1)) (fun j => j) d x_min x_max ∧
      (mpLoop (fun i => ro (i + 1)) (fun j => j) d x_min x_max = X0 ∨
       ¬ ro (mpLoop (fun i => ro (i + 1)) (fun j => j) d x_min x_max + 1) ≤
         d - (mpLoop (fun i => ro (i + 1)) (fun j => j) d x_min x_max + 1)) := by
  intro fuel
  induction fuel with
  | zero =>
    intro x_min x_max X0 hfuel hle hG hX
    have hnlt : ¬ x_min < x_max := by omega
    rw [mpLoop, if_neg hnlt]
    have he : x_min = x_max := by omega
    exact ⟨Nat.le_refl _, hle, hG, he ▸ hX⟩
  | succ n ih =>
    intro x_min x_max X0 hfuel hle hG hX
    rw [mpLoop]
    by_cases hlt : x_min < x_max
    · rw [if_pos hlt]
      have hp1 : x_min ≤ (x_min + x_max) / 2 := by omega
      have hp2 : (x_min + x_max) / 2 < x_max := by omega
      by_cases hc : ro ((x_min + x_max) / 2 + 1) ≤ d - (x_min + x_max) / 2 - 1
      · rw [if_pos hc]
        have hG2 : ro ((x_min + x_max) / 2 + 1) ≤ d - ((x_min + x_max) / 2 + 1) := by
          omega
        have := ih ((x_min + x_max) / 2 + 1) x_max X0 (by omega) (by omega) hG2 hX
        exact ⟨by omega, this.2⟩
      · rw [if_neg hc]
        have hX2 : (x_min + x_max) / 2 = X0 ∨
            ¬ ro ((x_min + x_max) / 2 + 1) ≤ d - ((x_min + x_max) / 2 + 1) := by
          right
          omega
        have := ih x_min ((x_min + x_max) / 2) X0 (by omega) (by omega) hG hX2
        exact ⟨this.1, by omega, this.2.2⟩
    · rw [if_neg hlt]
      have he : x_min = x_max := by omega
      exact ⟨Nat.le_refl _, hle, hG, he ▸ hX⟩

/-- Full characterization of `MergePathSearch` on the instance used by the
partitioner: for a well-formed CSR and a diagonal `d ≤ m + nnz`, the result
`(i, j)` satisfies `i + j = d`, lies on the clamped interval, satisfies
`row_offsets[i] ≤ d - i`, and `i` is maximal with that property. -/
theorem mergePathSearch_char (m nnz : Nat) (ro : Nat → Nat)
    (hmono : ∀ i, i < m → ro i ≤ ro (i + 1)) (h0 : ro 0 = 0) (hm : ro m = nnz)
    (d : Nat) (hd : d ≤ m + nnz) :
    (mergePathSearch d (fun i => ro (i + 1)) (fun j => j) m nnz).1 +
      (mergePathSearch d (fun i => ro (i + 1)) (fun j => j) m nnz).2 = d ∧
    d - nnz ≤ (mergePathSearch d (fun i => ro (i + 1)) (fun j => j) m nnz).1 ∧
    (mergePathSearch d (fun i => ro (i + 1)) (fun j => j) m nnz).1 ≤ min d m ∧
    (mergePathSearch d (fun i => ro (i + 1)) (fun j => j) m nnz).2 =
      d - (mergePathSearch d (fun i => ro (i + 1)) (fun j => j) m nnz).1 ∧
    ro (mergePathSearch d (fun i => ro (i + 1)) (fun j => j) m nnz).1 ≤
      d - (mergePathSearch d (fun i => ro (i + 1)) (fun j => j) m nnz).1 ∧
    (∀ k, d - nnz ≤ k → k ≤ min d m → ro k ≤ d - k →
      k ≤ (mergePathSearch d (fun i => ro (i + 1)) (fun j => j) m nnz).1) := by
  have hle : d - nnz ≤ min d m := by omega
  have hG0 : ro (d - nnz) ≤ d - (d - nnz) := by
    by_cases hc : d ≤ nnz
    · have hz : d - nnz = 0 := by omega
      rw [hz, h0]
      omega
    · have h1 : ro (d - nnz) ≤ ro m := ro_mono_of_local hmono m (Nat.le_refl m) _ (by omega)
      omega
  have hchar := mpLoop_char ro d (min d m - (d - nnz)) (d - nnz) (min d m) (min d m)
    (Nat.le_refl _) hle hG0 (Or.inl rfl)
  set r0 := mpLoop (fun i => ro (i + 1)) (fun j => j) d (d - nnz) (min d m) with hr0
  obtain ⟨hb1, hb2, hbG, hbX⟩ := hchar
  have hr0m : r0 ≤ m := by omega
  have hmin : min r0 m = r0 := by omega
  have hres : mergePathSearch d (fun i => ro (i + 1)) (fun j => j) m nnz = (r0, d - r0) := by
    rw [mergePathSearch]
    rw [hmin]
  rw [hres]
  refine ⟨by simp; omega, by simpa using hb1, by simpa using hb2, rfl, by simpa using hbG, ?_⟩
  intro k hk1 hk2 hkG
  simp only
  by_contra hgt
  have hlt : r0 < k := by omega
  have hrX : ¬ ro (r0 + 1) ≤ d - (r0 + 1) := by
    rcases hbX with hx | hx
    · omega
    · exact hx
  have hstep : ro (r0 + 1) ≤ ro k := ro_mono_of_local hmono k (by omega) _ (by omega)
  have : ro (r0 + 1) ≤ d - (r0 + 1) := by omega
  exact hrX this

/-- On diagonal 0 the search returns `(0, 0)`, for any lists. -/
theorem mergePathSearch_zero (a b : Nat → Nat) (a_len b_len : Nat) :
    mergePathSearch 0 a b a_len b_len = (0, 0) := by
  rw [mergePathSearch]
  simp [mpLoop_refl]

/-- On the last diagonal `a_len + b_len` the search returns
`(a_len, b_len)`, for any lists. -/
theorem mergePathSearch_top (a b : Nat → Nat) (a_len b_len : Nat) :
    mergePathSearch (a_len + b_len) a b a_len b_len = (a_len, b_len) := by
  rw [mergePathSearch]
  have h1 : a_len + b_len - b_len = a_len := by omega
  have h2 : min (a_len + b_len) a_len = a_len := by omega
  rw [h1, h2, mpLoop_refl]
  simp

/-- The search coordinate is monotone in the diagonal, componentwise. -/
theorem mergePathSearch_mono (m nnz : Nat) (ro : Nat → Nat)
    (hmono : ∀ i, i < m → ro i ≤ ro (i + 1)) (h0 : ro 0 = 0) (hm : ro m = nnz)
    (d1 d2 : Nat) (h12 : d1 ≤ d2) (hd2 : d2 ≤ m + nnz) :
    (mergePathSearch d1 (fun i => ro (i + 1)) (fun j => j) m nnz).1 ≤
      (mergePathSearch d2 (fun i => ro (i + 1)) (fun j => j) m nnz).1 ∧
    (mergePathSearch d1 (fun i => ro (i + 1)) (fun j => j) m nnz).2 ≤
      (mergePathSearch d2 (fun i => ro (i + 1)) (fun j => j) m nnz).2 := by
  obtain ⟨hs1, hlo1, hhi1, hy1, hG1, hmax1⟩ :=
    mergePathSearch_char m nnz ro hmono h0 hm d1 (by omega)
  obtain ⟨hs2, hlo2, hhi2, hy2, hG2, hmax2⟩ :=
    mergePathSearch_char m nnz ro hmono h0 hm d2 hd2
  set x1 := (mergePathSearch d1 (fun i => ro (i + 1)) (fun j => j) m nnz).1 with hx1
  set x2 := (mergePathSearch d2 (fun i => ro (i + 1)) (fun j => j) m nnz).1 with hx2
  have hxmono : x1 ≤ x2 := by
    by_cases hc : d2 - nnz ≤ x1
    · exact hmax2 x1 hc (by omega) (by omega)
    · omega
  refine ⟨hxmono, ?_⟩
  rw [hy1, hy2]
  by_contra hgt
  have hk : x1 + (d2 - d1) < x2 := by omega
  have hmono2 : ro (x2 - (d2 - d1)) ≤ ro x2 :=
    ro_mono_of_local hmono x2 (by omega) _ (by omega)
  have hkmax := hmax1 (x2 - (d2 - d1)) (by omega) (by omega) (by omega)
  omega

/-- Thread 0 starts on diagonal 0. -/
theorem startDiagonal_zero (P M : Nat) : startDiagonal P M 0 = 0 := by
  simp [startDiagonal]

/-- The per-thread quantum covers the whole merge path:
`M ≤ itemsPerThread P M * P` for `P ≥ 1`. -/
theorem itemsPerThread_mul_ge (P M : Nat) (hP : 1 ≤ P) :
    M ≤ itemsPerThread P M * P := by
  unfold itemsPerThread
  have h1 := Nat.div_add_mod (M + P - 1) P
  have h2 : (M + P - 1) % P < P := Nat.mod_lt _ (by omega)
  have h3 : (M + P - 1) / P * P = P * ((M + P - 1) / P) := Nat.mul_comm _ _
  omega

/-- The last thread ends on the last diagonal. -/
theorem endDiagonal_last (P M : Nat) (hP : 1 ≤ P) :
    endDiagonal P M (P - 1) = M := by
  unfold endDiagonal startDiagonal
  have h1 := itemsPerThread_mul_ge P M hP
  obtain ⟨Q, hQ⟩ : ∃ Q, P = Q + 1 := ⟨P - 1, by omega⟩
  subst hQ
  have h2 : Q + 1 - 1 = Q := by omega
  rw [h2]
  have h3 : itemsPerThread (Q + 1) M * (Q + 1) = itemsPerThread (Q + 1) M * Q +
      itemsPerThread (Q + 1) M := by ring
  omega

/-- The end diagonal of thread `t` is the start diagonal of thread `t + 1`. -/
theorem endDiagonal_eq_startDiagonal_succ (P M t : Nat) :
    endDiagonal P M t = startDiagonal P M (t + 1) := by
  unfold endDiagonal startDiagonal
  have h : itemsPerThread P M * (t + 1) = itemsPerThread P M * t + itemsPerThread P M := by
    ring
  omega

/-- The end diagonal equals `min(q * t + q, M)` directly. -/
theorem endDiagonal_eq_min (P M t : Nat) :
    endDiagonal P M t = min (itemsPerThread P M * t + itemsPerThread P M) M := by
  unfold endDiagonal startDiagonal
  omega

/-- C2: for a well-formed CSR matrix and any diagonal `d ∈ [0, m + nnz]`,
`MergePathSearch(d, row_offsets + 1, counting-iterator, m, nnz)` returns the
coordinate `(i, j)` with `i + j = d` where `i` is the largest value in
`[max(0, d - nnz), min(d, m)]` satisfying `row_offsets[i] ≤ d - i`; in
particular it returns `(0, 0)` for `d = 0` and `(m, nnz)` for
`d = m + nnz`. -/
theorem merge_path_search_correct (m nnz : Nat) (ro : Nat → Nat)
    (_hm1 : 1 ≤ m) (hmono : ∀ i, i < m → ro i ≤ ro (i + 1)) (h0 : ro 0 = 0)
    (hm : ro m = nnz) (d : Nat) (hd : d ≤ m + nnz) :
    (mergePathSearch d (fun i => ro (i + 1)) (fun j => j) m nnz).1 +
      (mergePathSearch d (fun i => ro (i + 1)) (fun j => j) m nnz).2 = d ∧
    d - nnz ≤ (mergePathSearch d (fun i => ro (i + 1)) (fun j => j) m nnz).1 ∧
    (mergePathSearch d (fun i => ro (i + 1)) (fun j => j) m nnz).1 ≤ min d m ∧
    ro (mergePathSearch d (fun i => ro (i + 1)) (fun j => j) m nnz).1 ≤
      d - (mergePathSearch d (fun i => ro (i + 1)) (fun j => j) m nnz).1 ∧
    (∀ k, d - nnz ≤ k → k ≤ min d m → ro k ≤ d - k →
      k ≤ (mergePathSearch d (fun i => ro (i + 1)) (fun j => j) m nnz).1) ∧
    (d = 0 → mergePathSearch d (fun i => ro (i + 1)) (fun j => j) m nnz = (0, 0)) ∧
    (d = m + nnz →
      mergePathSearch d (fun i => ro (i + 1)) (fun j => j) m nnz = (m, nnz)) := by
  obtain ⟨hs, hlo, hhi, hy, hG, hmax⟩ := mergePathSearch_char m nnz ro hmono h0 hm d hd
  refine ⟨hs, hlo, hhi, hG, hmax, ?_, ?_⟩
  · intro hz
    subst hz
    exact mergePathSearch_zero _ _ _ _
  · intro ht
    subst ht
    exact mergePathSearch_top _ _ _ _

/-- Witness for C2 on a concrete matrix (identity-like 2×2, d = m + nnz). -/
theorem merge_path_search_correct_witness :
    mergePathSearch 4 (fun i => min (i + 1) 2) (fun j => j) 2 2 = (2, 2) :=
  (merge_path_search_correct 2 2 (fun i => min i 2) (by decide) (by decide)
    (by decide) (by decide) 4 (by decide)).2.2.2.2.2.2 rfl

/-- C3: for every well-formed CSR matrix and every `P ≥ 1`, the partition
produced by `OmpMergePartitionMatrix` satisfies `start[0] = (0, 0)`,
`end[P-1] = (m, nnz)`, and `end[t] = start[t+1]` for `0 ≤ t < P - 1`. -/
theorem partition_coverage (P m nnz : Nat) (ro : Nat → Nat) (hP : 1 ≤ P)
    (_hm1 : 1 ≤ m) (_hmono : ∀ i, i < m → ro i ≤ ro (i + 1)) (_h0 : ro 0 = 0)
    (_hm : ro m = nnz) :
    (ompMergePartitionMatrix P m nnz ro).1 0 = (0, 0) ∧
    (ompMergePartitionMatrix P m nnz ro).2 (P - 1) = (m, nnz) ∧
    (∀ t, t < P - 1 → (ompMergePartitionMatrix P m nnz ro).2 t =
      (ompMergePartitionMatrix P m nnz ro).1 (t + 1)) := by
  refine ⟨?_, ?_, ?_⟩
  · show mergePathSearch (startDiagonal P (m + nnz) 0) (fun i => ro (i + 1))
      (fun i => i) m nnz = (0, 0)
    rw [startDiagonal_zero]
    exact mergePathSearch_zero _ _ _ _
  · show mergePathSearch (endDiagonal P (m + nnz) (P - 1)) (fun i => ro (i + 1))
      (fun i => i) m nnz = (m, nnz)
    rw [endDiagonal_last P (m + nnz) hP]
    exact mergePathSearch_top _ _ _ _
  · intro t _
    show mergePathSearch (endDiagonal P (m + nnz) t) (fun i => ro (i + 1))
        (fun i => i) m nnz =
      mergePathSearch (startDiagonal P (m + nnz) (t + 1)) (fun i => ro (i + 1))
        (fun i => i) m nnz
    rw [endDiagonal_eq_startDiagonal_succ]

/-- Witness for C3 on a concrete matrix with P = 3 threads. -/
theorem partition_coverage_witness :
    (ompMergePartitionMatrix 3 2 2 (fun i => min i 2)).1 0 = (0, 0) :=
  (partition_coverage 3 2 2 (fun i => min i 2) (by decide) (by decide) (by decide)
    (by decide) (by decide)).1

/-- C4: for every well-formed CSR matrix, every `P ≥ 1` and every thread
`t < P`, with `M = m + nnz` and `q = ⌈M / P⌉ = itemsPerThread P M`, the
partition satisfies `start[t].x + start[t].y = min(q·t, M)` and
`end[t].x + end[t].y = min(q·t + q, M)`. -/
theorem partition_diagonal_placement (P m nnz : Nat) (ro : Nat → Nat) (_hP : 1 ≤ P)
    (_hm1 : 1 ≤ m) (hmono : ∀ i, i < m → ro i ≤ ro (i + 1)) (h0 : ro 0 = 0)
    (hm : ro m = nnz) (t : Nat) (_ht : t < P) :
    ((ompMergePartitionMatrix P m nnz ro).1 t).1 +
      ((ompMergePartitionMatrix P m nnz ro).1 t).2 =
      min (itemsPerThread P (m + nnz) * t) (m + nnz) ∧
    ((ompMergePartitionMatrix P m nnz ro).2 t).1 +
      ((ompMergePartitionMatrix P m nnz ro).2 t).2 =
      min (itemsPerThread P (m + nnz) * t + itemsPerThread P (m + nnz)) (m + nnz) := by
  have h1 := (mergePathSearch_char m nnz ro hmono h0 hm (startDiagonal P (m + nnz) t)
    (by unfold startDiagonal; omega)).1
  have h2 := (mergePathSearch_char m nnz ro hmono h0 hm (endDiagonal P (m + nnz) t)
    (by unfold endDiagonal; omega)).1
  constructor
  · have he : startDiagonal P (m + nnz) t =
        min (itemsPerThread P (m + nnz) * t) (m + nnz) := rfl
    rw [← he]
    exact h1
  · rw [← endDiagonal_eq_min]
    exact h2

/-- Witness for C4 on a concrete matrix with P = 2 threads at t = 1. -/
theorem partition_diagonal_placement_witness :
    ((ompMergePartitionMatrix 2 2 2 (fun i => min i 2)).1 1).1 +
      ((ompMergePartitionMatrix 2 2 2 (fun i => min i 2)).1 1).2 =
      min (itemsPerThread 2 4 * 1) 4 ∧
    ((ompMergePartitionMatrix 2 2 2 (fun i => min i 2)).2 1).1 +
      ((ompMergePartitionMatrix 2 2 2 (fun i => min i 2)).2 1).2 =
      min (itemsPerThread 2 4 * 1 + itemsPerThread 2 4) 4 :=
  partition_diagonal_placement 2 2 2 (fun i => min i 2) (by decide) (by decide)
    (by decide) (by decide) (by decide) 1 (by decide)

/-- C10: the partitioner never reads `row_offsets[0]`: two CSR inputs that
differ only in `row_offsets[0]` yield identical thread coordinates for
every thread count. -/
theorem partition_noninterference (P m nnz : Nat) (ro ro2 : Nat → Nat) (_hP : 1 ≤ P)
    (h : ∀ i, 1 ≤ i → ro i = ro2 i) :
    ompMergePartitionMatrix P m nnz ro = ompMergePartitionMatrix P m nnz ro2 := by
  have hf : (fun i => ro (i + 1)) = (fun i => ro2 (i + 1)) := by
    funext i
    exact h (i + 1) (by omega)
  unfold ompMergePartitionMatrix partitionCoords
  rw [hf]

/-- Witness for C10: two offset arrays differing only at index 0. -/
theorem partition_noninterference_witness :
    ompMergePartitionMatrix 2 3 3 (fun i => i) =
      ompMergePartitionMatrix 2 3 3 (fun i => if i = 0 then 7 else i) :=
  partition_noninterference 2 3 3 (fun i => i) (fun i => if i = 0 then 7 else i)
    (by decide) (by intro i hi; show i = if i = 0 then 7 else i; rw [if_neg (by omega)])

/-- An empty range contributes nothing to `partialSum`. -/
theorem partialSum_empty (values : Nat → ℚ) (column_indices : Nat → Nat)
    (vector_x : Nat → ℚ) (lo hi : Nat) (h : hi ≤ lo) :
    partialSum values column_indices vector_x lo hi = 0 := by
  rw [partialSum, if_neg (by omega)]

/-- Unfolding of `partialSum` on a nonempty range. -/
theorem partialSum_step (values : Nat → ℚ) (column_indices : Nat → Nat)
    (vector_x : Nat → ℚ) (lo hi : Nat) (h : lo < hi) :
    partialSum values column_indices vector_x lo hi =
      values lo * vector_x (column_indices lo) +
        partialSum values column_indices vector_x (lo + 1) hi := by
  rw [partialSum, if_pos h]

/-- `partialSum` splits at any midpoint of the range. -/
theorem partialSum_append (values : Nat → ℚ) (column_indices : Nat → Nat)
    (vector_x : Nat → ℚ) :
    ∀ fuel lo mid hi, mid - lo ≤ fuel → lo ≤ mid → mid ≤ hi →
      partialSum values column_indices vector_x lo hi =
        partialSum values column_indices vector_x lo mid +
          partialSum values column_indices vector_x mid hi := by
  intro fuel
  induction fuel with
  | zero =>
    intro lo mid hi hf h1 h2
    have he : lo = mid := by omega
    subst he
    rw [partialSum_empty values column_indices vector_x lo lo (Nat.le_refl _)]
    ring
  | succ n ih =>
    intro lo mid hi hf h1 h2
    rcases Nat.eq_or_lt_of_le h1 with he | hlt
    · subst he
      rw [partialSum_empty values column_indices vector_x lo lo (Nat.le_refl _)]
      ring
    · rw [partialSum_step values column_indices vector_x lo hi (by omega),
        partialSum_step values column_indices vector_x lo mid hlt,
        ih (lo + 1) mid hi (by omega) (by omega) h2]
      ring

/-- `innerLoop` computes `acc` plus the exact partial sum of its range, and
leaves the offset at `max cy hi`. -/
theorem innerLoop_eq (values : Nat → ℚ) (column_indices : Nat → Nat)
    (vector_x : Nat → ℚ) :
    ∀ fuel cy hi acc, hi - cy ≤ fuel →
      innerLoop values column_indices vector_x cy hi acc =
        (acc + partialSum values column_indices vector_x cy hi, max cy hi) := by
  intro fuel
  induction fuel with
  | zero =>
    intro cy hi acc hf
    rw [innerLoop, if_neg (by omega),
      partialSum_empty values column_indices vector_x cy hi (by omega)]
    have h2 : max cy hi = cy := by omega
    rw [h2]
    norm_num
  | succ n ih =>
    intro cy hi acc hf
    by_cases hlt : cy < hi
    · rw [innerLoop, if_pos hlt, ih (cy + 1) hi _ (by omega),
        partialSum_step values column_indices vector_x cy hi hlt]
      have h2 : max (cy + 1) hi = max cy hi := by omega
      rw [h2]
      congr 1
      ring
    · rw [innerLoop, if_neg hlt,
        partialSum_empty values column_indices vector_x cy hi (by omega)]
      have h2 : max cy hi = cy := by omega
      rw [h2]
      norm_num

/-- Characterization of the whole-rows loop: the final offset is
`row_offsets[ex]` when at least one row was consumed, rows outside
`[cx, ex)` are untouched, the first consumed row receives the partial sum
starting at the entry offset `cy`, and every later consumed row receives
its full row sum. -/
theorem consumeRows_spec (ro : Nat → Nat) (ci : Nat → Nat) (v x : Nat → ℚ)
    (m : Nat) (hmono : ∀ i, i < m → ro i ≤ ro (i + 1)) :
    ∀ fuel cx ex cy y, ex - cx ≤ fuel → ex ≤ m → (cx < ex → cy ≤ ro (cx + 1)) →
      ((consumeRows ro ci v x cx ex cy y).2 = if cx < ex then ro ex else cy) ∧
      (∀ i, i < cx → (consumeRows ro ci v x cx ex cy y).1 i = y i) ∧
      (∀ i, ex ≤ i → (consumeRows ro ci v x cx ex cy y).1 i = y i) ∧
      (cx < ex → (consumeRows ro ci v x cx ex cy y).1 cx =
        partialSum v ci x cy (ro (cx + 1))) ∧
      (∀ i, cx < i → i < ex → (consumeRows ro ci v x cx ex cy y).1 i =
        partialSum v ci x (ro i) (ro (i + 1))) := by
  intro fuel
  induction fuel with
  | zero =>
    intro cx ex cy y hf hex _
    have hnlt : ¬ cx < ex := by omega
    rw [consumeRows, if_neg hnlt]
    exact ⟨by rw [if_neg hnlt], fun i _ => rfl, fun i _ => rfl,
      fun h => absurd h hnlt, fun i h1 h2 => absurd (by omega : cx < ex) hnlt⟩
  | succ n ih =>
    intro cx ex cy y hf hex hcy
    by_cases hlt : cx < ex
    · rw [consumeRows, if_pos hlt]
      have hinner := innerLoop_eq v ci x (ro (cx + 1) - cy) cy (ro (cx + 1)) 0
        (Nat.le_refl _)
      have hv : (innerLoop v ci x cy (ro (cx + 1)) 0).1 =
          partialSum v ci x cy (ro (cx + 1)) := by
        rw [hinner]
        show 0 + partialSum v ci x cy (ro (cx + 1)) = _
        ring
      have hc : (innerLoop v ci x cy (ro (cx + 1)) 0).2 = ro (cx + 1) := by
        rw [hinner]
        show max cy (ro (cx + 1)) = ro (cx + 1)
        have := hcy hlt
        omega
      rw [hv, hc]
      have hstep : cx + 1 < ex → ro (cx + 1) ≤ ro (cx + 1 + 1) :=
        fun h => hmono (cx + 1) (by omega)
      obtain ⟨ih1, ih2, ih3, ih4, ih5⟩ := ih (cx + 1) ex (ro (cx + 1))
        (upd y cx (partialSum v ci x cy (ro (cx + 1)))) (by omega) hex hstep
      refine ⟨?_, ?_, ?_, ?_, ?_⟩
      · rw [ih1, if_pos hlt]
        by_cases h2 : cx + 1 < ex
        · rw [if_pos h2]
        · rw [if_neg h2]
          have he : ex = cx + 1 := by omega
          rw [he]
      · intro i hi
        rw [ih2 i (by omega), upd_other _ _ _ _ (by omega)]
      · intro i hi
        rw [ih3 i hi, upd_other _ _ _ _ (by omega)]
      · intro _
        rw [ih2 cx (by omega), upd_same]
      · intro i hi1 hi2
        rcases Nat.eq_or_lt_of_le (by omega : cx + 1 ≤ i) with he | h3
        · rw [← he] at hi2
          have := ih4 hi2
          rw [← he, this]
        · exact ih5 i h3 hi2
    · rw [consumeRows, if_neg hlt]
      exact ⟨by rw [if_neg hlt], fun i _ => rfl, fun i _ => rfl,
        fun h => absurd h hlt, fun i h1 h2 => absurd (by omega : cx < ex) hlt⟩

/-- Characterization of one thread's body: rows outside the thread's range
are untouched, the first row of the range receives the partial sum from the
thread's entry offset, later rows receive full row sums, and the carry-out
is `(end.x, partial sum of the tail)`. -/
theorem threadBody_spec (ro : Nat → Nat) (ci : Nat → Nat) (v x : Nat → ℚ) (m : Nat)
    (hmono : ∀ i, i < m → ro i ≤ ro (i + 1)) (sx sy ex ey : Nat) (y : Nat → ℚ)
    (hex : ex ≤ m) (hsy : sx < ex → sy ≤ ro (sx + 1)) :
    (∀ i, i < sx → (threadBody ro ci v x (sx, sy) (ex, ey) y).1 i = y i) ∧
    (∀ i, ex ≤ i → (threadBody ro ci v x (sx, sy) (ex, ey) y).1 i = y i) ∧
    (sx < ex → (threadBody ro ci v x (sx, sy) (ex, ey) y).1 sx =
      partialSum v ci x sy (ro (sx + 1))) ∧
    (∀ i, sx < i → i < ex → (threadBody ro ci v x (sx, sy) (ex, ey) y).1 i =
      partialSum v ci x (ro i) (ro (i + 1))) ∧
    (threadBody ro ci v x (sx, sy) (ex, ey) y).2.1 = ex ∧
    (threadBody ro ci v x (sx, sy) (ex, ey) y).2.2 =
      partialSum v ci x (if sx < ex then ro ex else sy) ey := by
  obtain ⟨h1, h2, h3, h4, h5⟩ := consumeRows_spec ro ci v x m hmono (ex - sx) sx ex sy y
    (Nat.le_refl _) hex hsy
  refine ⟨h2, h3, h4, h5, rfl, ?_⟩
  show (innerLoop v ci x (consumeRows ro ci v x sx ex sy y).2 ey 0).1 = _
  rw [h1, innerLoop_eq v ci x _ _ ey 0 (Nat.le_refl _)]
  show 0 + partialSum v ci x (if sx < ex then ro ex else sy) ey = _
  ring

/-- Characterization of the sequential thread loop from thread `tid` on,
for a coordinate family `(X t, Y t)`: rows below `X tid` and at or above
`X P` are untouched, a row `i` in the range of thread `t` holds its
assigned value (the tail sum from `Y t` when `i = X t`, the full row sum
otherwise), carry slots below `tid` are untouched, and the carry of thread
`t` is `(X (t+1), partial sum of the straddling portion)`. -/
theorem threadsLoop_spec (tcs tces : Nat → Nat × Nat) (ro : Nat → Nat) (ci : Nat → Nat)
    (v x : Nat → ℚ) (m P : Nat) (X Y : Nat → Nat)
    (hmono : ∀ i, i < m → ro i ≤ ro (i + 1))
    (hcoords : ∀ t, t < P → tcs t = (X t, Y t) ∧ tces t = (X (t + 1), Y (t + 1)))
    (hXm : ∀ t, t ≤ P → X t ≤ m)
    (hXmono : ∀ s t, s ≤ t → X s ≤ X t)
    (hYro : ∀ t, t < P → X t < X (t + 1) → Y t ≤ ro (X t + 1)) :
    ∀ fuel tid y rc vc, P - tid ≤ fuel → tid ≤ P →
      (∀ i, i < X tid →
        (threadsLoop tcs tces ro ci v x tid P y rc vc).1 i = y i) ∧
      (∀ i, X P ≤ i →
        (threadsLoop tcs tces ro ci v x tid P y rc vc).1 i = y i) ∧
      (∀ t, tid ≤ t → t < P → ∀ i, X t ≤ i → i < X (t + 1) →
        (threadsLoop tcs tces ro ci v x tid P y rc vc).1 i =
          if i = X t then partialSum v ci x (Y t) (ro (i + 1))
          else partialSum v ci x (ro i) (ro (i + 1))) ∧
      (∀ t, t < tid →
        (threadsLoop tcs tces ro ci v x tid P y rc vc).2.1 t = rc t ∧
        (threadsLoop tcs tces ro ci v x tid P y rc vc).2.2 t = vc t) ∧
      (∀ t, tid ≤ t → t < P →
        (threadsLoop tcs tces ro ci v x tid P y rc vc).2.1 t = X (t + 1) ∧
        (threadsLoop tcs tces ro ci v x tid P y rc vc).2.2 t =
          partialSum v ci x (if X t < X (t + 1) then ro (X (t + 1)) else Y t)
            (Y (t + 1))) := by
  intro fuel
  induction fuel with
  | zero =>
    intro tid y rc vc hf htid
    have hnlt : ¬ tid < P := by omega
    rw [threadsLoop, if_neg hnlt]
    exact ⟨fun i _ => rfl, fun i _ => rfl,
      fun t h1 h2 => absurd (by omega : tid < P) hnlt,
      fun t _ => ⟨rfl, rfl⟩,
      fun t h1 h2 => absurd (by omega : tid < P) hnlt⟩
  | succ n ih =>
    intro tid y rc vc hf htid
    by_cases hlt : tid < P
    · rw [threadsLoop, if_pos hlt, (hcoords tid hlt).1, (hcoords tid hlt).2]
      obtain ⟨tb1, tb2, tb3, tb4, tb5, tb6⟩ := threadBody_spec ro ci v x m hmono
        (X tid) (Y tid) (X (tid + 1)) (Y (tid + 1)) y
        (hXm (tid + 1) (by omega)) (hYro tid hlt)
      obtain ⟨ih1, ih2, ih3, ih4, ih5⟩ := ih (tid + 1)
        (threadBody ro ci v x (X tid, Y tid) (X (tid + 1), Y (tid + 1)) y).1
        (upd rc tid
          (threadBody ro ci v x (X tid, Y tid) (X (tid + 1), Y (tid + 1)) y).2.1)
        (upd vc tid
          (threadBody ro ci v x (X tid, Y tid) (X (tid + 1), Y (tid + 1)) y).2.2)
        (by omega) (by omega)
      refine ⟨?_, ?_, ?_, ?_, ?_⟩
      · intro i hi
        rw [ih1 i (by have := hXmono tid (tid + 1) (by omega); omega),
          tb1 i hi]
      · intro i hi
        rw [ih2 i hi, tb2 i
          (by have := hXmono (tid + 1) P (by omega); omega)]
      · intro t ht1 ht2 i hi1 hi2
        rcases Nat.eq_or_lt_of_le ht1 with he | h3
        · subst he
          rw [ih1 i hi2]
          by_cases hix : i = X tid
          · rw [if_pos hix]
            subst hix
            exact tb3 (by omega)
          · rw [if_neg hix]
            exact tb4 i (by omega) hi2
        · exact ih3 t h3 ht2 i hi1 hi2
      · intro t ht
        obtain ⟨ha, hb⟩ := ih4 t (by omega)
        rw [ha, hb, upd_other _ _ _ _ (by omega), upd_other _ _ _ _ (by omega)]
        exact ⟨rfl, rfl⟩
      · intro t ht1 ht2
        rcases Nat.eq_or_lt_of_le ht1 with he | h3
        · subst he
          obtain ⟨ha, hb⟩ := ih4 tid (by omega)
          rw [ha, hb, upd_same, upd_same, tb5, tb6]
          exact ⟨rfl, rfl⟩
        · exact ih5 t h3 ht2
    · have he : tid = P := by omega
      rw [threadsLoop, if_neg hlt]
      exact ⟨fun i _ => rfl, fun i _ => rfl,
        fun t h1 h2 => absurd (by omega : tid < P) hlt,
        fun t _ => ⟨rfl, rfl⟩,
        fun t h1 h2 => absurd (by omega : tid < P) hlt⟩

/-- `carrySum` vanishes when no thread in the range carries into row `i`. -/
theorem carrySum_zero (rc : Nat → Nat) (vc : Nat → ℚ) (i : Nat) :
    ∀ fuel tid tlast, tlast - tid ≤ fuel →
      (∀ t, tid ≤ t → t < tlast → rc t ≠ i) →
      carrySum rc vc i tid tlast = 0 := by
  intro fuel
  induction fuel with
  | zero =>
    intro tid tlast hf h
    rw [carrySum, if_neg (by omega)]
  | succ n ih =>
    intro tid tlast hf h
    by_cases hlt : tid < tlast
    · rw [carrySum, if_pos hlt, if_neg (h tid (Nat.le_refl _) hlt),
        ih (tid + 1) tlast (by omega) (fun t h1 h2 => h t (by omega) h2)]
      ring
    · rw [carrySum, if_neg hlt]

/-- `carrySum` over an empty thread range is 0. -/
theorem carrySum_refl (rc : Nat → Nat) (vc : Nat → ℚ) (i t : Nat) :
    carrySum rc vc i t t = 0 := by
  rw [carrySum, if_neg (by omega)]

/-- `carrySum` splits at any midpoint of the thread range. -/
theorem carrySum_split (rc : Nat → Nat) (vc : Nat → ℚ) (i : Nat) :
    ∀ fuel tid mid tlast, mid - tid ≤ fuel → tid ≤ mid → mid ≤ tlast →
      carrySum rc vc i tid tlast =
        carrySum rc vc i tid mid + carrySum rc vc i mid tlast := by
  intro fuel
  induction fuel with
  | zero =>
    intro tid mid tlast hf h1 h2
    have he : tid = mid := by omega
    subst he
    rw [carrySum_refl]
    ring
  | succ n ih =>
    intro tid mid tlast hf h1 h2
    rcases Nat.eq_or_lt_of_le h1 with he | hlt
    · subst he
      rw [carrySum_refl]
      ring
    · rw [carrySum, if_pos (by omega : tid < tlast)]
      conv_rhs => rw [carrySum, if_pos hlt]
      rw [ih (tid + 1) mid tlast (by omega) (by omega) h2]
      ring

/-- The fix-up loop leaves rows at or above `num_rows` untouched, and adds
into each row `i < num_rows` exactly the carry values of the threads in
its range whose carry row is `i`. -/
theorem fixupLoop_spec (m : Nat) (rc : Nat → Nat) (vc : Nat → ℚ) :
    ∀ fuel tid tlast y, tlast - tid ≤ fuel →
      (∀ i, m ≤ i → fixupLoop m rc vc tid tlast y i = y i) ∧
      (∀ i, i < m → fixupLoop m rc vc tid tlast y i =
        y i + carrySum rc vc i tid tlast) := by
  intro fuel
  induction fuel with
  | zero =>
    intro tid tlast y hf
    have hnlt : ¬ tid < tlast := by omega
    rw [fixupLoop, if_neg hnlt]
    refine ⟨fun i _ => rfl, fun i _ => ?_⟩
    rw [carrySum, if_neg hnlt]
    ring
  | succ n ih =>
    intro tid tlast y hf
    by_cases hlt : tid < tlast
    · rw [fixupLoop, if_pos hlt]
      obtain ⟨ih1, ih2⟩ := ih (tid + 1) tlast
        (if rc tid < m then upd y (rc tid) (y (rc tid) + vc tid) else y) (by omega)
      have hy2 : ∀ i, i < m →
          (if rc tid < m then upd y (rc tid) (y (rc tid) + vc tid) else y) i =
            y i + (if rc tid = i then vc tid else 0) := by
        intro i hi
        by_cases hr : rc tid < m
        · rw [if_pos hr]
          by_cases hri : i = rc tid
          · subst hri
            rw [upd_same, if_pos rfl]
          · rw [upd_other _ _ _ _ hri, if_neg (fun h => hri h.symm)]
            ring
        · rw [if_neg hr, if_neg (by omega)]
          ring
      refine ⟨fun i hi => ?_, fun i hi => ?_⟩
      · rw [ih1 i hi]
        by_cases hr : rc tid < m
        · rw [if_pos hr, upd_other _ _ _ _ (by omega)]
        · rw [if_neg hr]
      · rw [ih2 i hi, hy2 i hi]
        conv_rhs => rw [carrySum, if_pos hlt]
        ring
    · rw [fixupLoop, if_neg hlt]
      refine ⟨fun i _ => rfl, fun i _ => ?_⟩
      rw [carrySum, if_neg hlt]
      ring

/-- The fix-up loop only reads the carry slots in its range: it yields the
same result on carry arrays that agree on `[tid, tlast)`. -/
theorem fixupLoop_congr (m : Nat) (rc rc2 : Nat → Nat) (vc vc2 : Nat → ℚ) :
    ∀ fuel tid tlast y, tlast - tid ≤ fuel →
      (∀ t, tid ≤ t → t < tlast → rc t = rc2 t ∧ vc t = vc2 t) →
      fixupLoop m rc vc tid tlast y = fixupLoop m rc2 vc2 tid tlast y := by
  intro fuel
  induction fuel with
  | zero =>
    intro tid tlast y hf h
    have hnlt : ¬ tid < tlast := by omega
    rw [fixupLoop, if_neg hnlt, fixupLoop, if_neg hnlt]
  | succ n ih =>
    intro tid tlast y hf h
    by_cases hlt : tid < tlast
    · rw [fixupLoop, if_pos hlt]
      conv_rhs => rw [fixupLoop, if_pos hlt]
      rw [(h tid (Nat.le_refl _) hlt).1, (h tid (Nat.le_refl _) hlt).2,
        ih (tid + 1) tlast _ (by omega) (fun t h1 h2 => h t (by omega) h2)]
    · rw [fixupLoop, if_neg hlt, fixupLoop, if_neg hlt]

/-- A single-thread carry range evaluates to the guarded carry value. -/
theorem carrySum_single (rc : Nat → Nat) (vc : Nat → ℚ) (i t : Nat) :
    carrySum rc vc i t (t + 1) = if rc t = i then vc t else 0 := by
  rw [carrySum, if_pos (by omega), carrySum_refl]
  ring

/-- The serial reference loop writes the exact row sum into every row at or
after its current position, and leaves earlier rows untouched. -/
theorem spmvGoldLoop_spec (m : Nat) (ro : Nat → Nat) (ci : Nat → Nat) (v x : Nat → ℚ) :
    ∀ fuel row y, m - row ≤ fuel →
      (∀ i, i < row → spmvGoldLoop m ro ci v x row y i = y i) ∧
      (∀ i, row ≤ i → i < m → spmvGoldLoop m ro ci v x row y i =
        partialSum v ci x (ro i) (ro (i + 1))) := by
  intro fuel
  induction fuel with
  | zero =>
    intro row y hf
    have hnlt : ¬ row < m := by omega
    rw [spmvGoldLoop, if_neg hnlt]
    exact ⟨fun i _ => rfl, fun i h1 h2 => absurd (by omega : row < m) hnlt⟩
  | succ n ih =>
    intro row y hf
    by_cases hlt : row < m
    · rw [spmvGoldLoop, if_pos hlt]
      have hv : (innerLoop v ci x (ro row) (ro (row + 1)) 0).1 =
          partialSum v ci x (ro row) (ro (row + 1)) := by
        rw [innerLoop_eq v ci x _ _ _ 0 (Nat.le_refl _)]
        show 0 + partialSum v ci x (ro row) (ro (row + 1)) = _
        ring
      rw [hv]
      obtain ⟨ih1, ih2⟩ := ih (row + 1)
        (upd y row (partialSum v ci x (ro row) (ro (row + 1)))) (by omega)
      refine ⟨fun i hi => ?_, fun i h1 h2 => ?_⟩
      · rw [ih1 i (by omega), upd_other _ _ _ _ (by omega)]
      · rcases Nat.eq_or_lt_of_le h1 with he | h3
        · subst he
          rw [ih1 row (by omega), upd_same]
        · exact ih2 i h3 h2
    · rw [spmvGoldLoop, if_neg hlt]
      exact ⟨fun i _ => rfl, fun i h1 h2 => absurd (by omega : row < m) hlt⟩

/-- `SpmvGold` writes the exact row sum into every row below `m`. -/
theorem spmvGold_at (m : Nat) (ro : Nat → Nat) (ci : Nat → Nat) (v x : Nat → ℚ)
    (y : Nat → ℚ) (i : Nat) (hi : i < m) :
    spmvGold m ro ci v x y i = partialSum v ci x (ro i) (ro (i + 1)) :=
  (spmvGoldLoop_spec m ro ci v x m 0 y (by omega)).2 i (by omega) hi

/-- Every row below `X P` has a unique first thread whose row range
contains it; existence part. -/
theorem exists_owner (X : Nat → Nat) (i : Nat) :
    ∀ P, X 0 ≤ i → i < X P → ∃ u, u < P ∧ X u ≤ i ∧ i < X (u + 1) := by
  intro P
  induction P with
  | zero =>
    intro h1 h2
    omega
  | succ n ih =>
    intro h1 h2
    by_cases hc : X n ≤ i
    · exact ⟨n, by omega, hc, h2⟩
    · obtain ⟨u, hu1, hu2, hu3⟩ := ih h1 (by omega)
      exact ⟨u, by omega, hu2, hu3⟩

/-- Upper path-coherence of the search result: when the result row is not
the last one, the result offset does not exceed the end of that row. -/
theorem mergePathSearch_upper (m nnz : Nat) (ro : Nat → Nat)
    (hmono : ∀ i, i < m → ro i ≤ ro (i + 1)) (h0 : ro 0 = 0) (hm : ro m = nnz)
    (d : Nat) (hd : d ≤ m + nnz)
    (hlt : (mergePathSearch d (fun i => ro (i + 1)) (fun j => j) m nnz).1 < m) :
    (mergePathSearch d (fun i => ro (i + 1)) (fun j => j) m nnz).2 ≤
      ro ((mergePathSearch d (fun i => ro (i + 1)) (fun j => j) m nnz).1 + 1) := by
  obtain ⟨hs, hlo, hhi, hy, hG, hmax⟩ := mergePathSearch_char m nnz ro hmono h0 hm d hd
  set r1 := (mergePathSearch d (fun i => ro (i + 1)) (fun j => j) m nnz).1 with hr1
  by_contra hgt
  have hk := hmax (r1 + 1) (by omega) (by omega) (by omega)
  omega

/-- Telescoping of the carries into a split row: if thread `u` starts
exactly at row `i` (`X u = i`), the carries of threads `0..u-1` landing at
row `i` sum to the partial row sum from `row_offsets[i]` up to `Y u`. -/
theorem carry_chain (ro : Nat → Nat) (ci : Nat → Nat) (v x : Nat → ℚ)
    (P : Nat) (X Y : Nat → Nat) (rc : Nat → Nat) (vc : Nat → ℚ)
    (hX0 : X 0 = 0) (hY0 : Y 0 = 0) (h0 : ro 0 = 0)
    (hXmono : ∀ s t, s ≤ t → X s ≤ X t)
    (hYmono : ∀ t, Y t ≤ Y (t + 1))
    (hlo : ∀ t, t ≤ P → ro (X t) ≤ Y t)
    (hrc : ∀ t, t < P → rc t = X (t + 1))
    (hvc : ∀ t, t < P → vc t =
      partialSum v ci x (if X t < X (t + 1) then ro (X (t + 1)) else Y t) (Y (t + 1)))
    (i : Nat) :
    ∀ u, u ≤ P → X u = i →
      carrySum rc vc i 0 u = partialSum v ci x (ro i) (Y u) := by
  intro u
  induction u with
  | zero =>
    intro hu hXu
    rw [carrySum_refl, ← hXu, hX0, h0, hY0,
      partialSum_empty v ci x 0 0 (Nat.le_refl _)]
  | succ w ih =>
    intro hu hXu
    rw [carrySum_split rc vc i w 0 w (w + 1) (by omega) (by omega) (by omega),
      carrySum_single, hrc w (by omega), if_pos hXu, hvc w (by omega)]
    by_cases hxw : X w < X (w + 1)
    · rw [if_pos hxw, hXu]
      rw [carrySum_zero rc vc i w 0 w (by omega) ?_]
      · ring
      · intro t h1 h2
        rw [hrc t (by omega)]
        have ha : X (t + 1) ≤ X w := hXmono (t + 1) w (by omega)
        omega
    · rw [if_neg hxw]
      have hxe : X w = i := by
        have := hXmono w (w + 1) (by omega)
        omega
      rw [ih (by omega) hxe,
        ← partialSum_append v ci x (Y w - ro i) (ro i) (Y w) (Y (w + 1))
          (by omega) (by rw [← hxe]; exact hlo w (by omega)) (hYmono w)]

/-- Correctness of `OmpMergeCsrmv` over any monotone, path-coherent
coordinate family `(X t, Y t)` covering the whole matrix: after the
parallel phase and the serial fix-up, every row `i < m` of `y` holds the
exact row sum, for arbitrary initial contents of `y` and of the carry
arrays. -/
theorem ompMergeCsrmv_rowSum (tcs tces : Nat → Nat × Nat) (ro : Nat → Nat)
    (ci : Nat → Nat) (v x : Nat → ℚ) (m nnz P : Nat) (X Y : Nat → Nat)
    (y : Nat → ℚ) (rc0 : Nat → Nat) (vc0 : Nat → ℚ)
    (hmono : ∀ i, i < m → ro i ≤ ro (i + 1)) (h0 : ro 0 = 0)
    (hcoords : ∀ t, t < P → tcs t = (X t, Y t) ∧ tces t = (X (t + 1), Y (t + 1)))
    (hX0 : X 0 = 0) (hY0 : Y 0 = 0) (hXP : X P = m)
    (hXmono : ∀ s t, s ≤ t → X s ≤ X t)
    (hYmono : ∀ t, Y t ≤ Y (t + 1))
    (hXm : ∀ t, t ≤ P → X t ≤ m)
    (hlo : ∀ t, t ≤ P → ro (X t) ≤ Y t)
    (hhi : ∀ t, t ≤ P → X t < m → Y t ≤ ro (X t + 1))
    (i : Nat) (hi : i < m) :
    ompMergeCsrmv tcs tces P m nnz ro ci v x y rc0 vc0 i =
      partialSum v ci x (ro i) (ro (i + 1)) := by
  obtain ⟨tl1, tl2, tl3, tl4, tl5⟩ := threadsLoop_spec tcs tces ro ci v x m P X Y
    hmono hcoords hXm hXmono
    (fun t ht hx => hhi t (by omega) (by have := hXm (t + 1) (by omega); omega))
    P 0 y rc0 vc0 (Nat.le_refl _) (by omega)
  show fixupLoop m (threadsLoop tcs tces ro ci v x 0 P y rc0 vc0).2.1
      (threadsLoop tcs tces ro ci v x 0 P y rc0 vc0).2.2 0 (P - 1)
      (threadsLoop tcs tces ro ci v x 0 P y rc0 vc0).1 i =
    partialSum v ci x (ro i) (ro (i + 1))
  set L := threadsLoop tcs tces ro ci v x 0 P y rc0 vc0 with hL
  obtain ⟨f1, f2⟩ := fixupLoop_spec m L.2.1 L.2.2 (P - 1) 0 (P - 1) L.1 (Nat.le_refl _)
  rw [f2 i hi]
  obtain ⟨u, huP, hu1, hu2⟩ := exists_owner X i P (by omega) (by omega)
  have hyi := tl3 u (by omega) huP i hu1 hu2
  by_cases hix : i = X u
  · rw [hyi, if_pos hix]
    rw [carrySum_split L.2.1 L.2.2 i u 0 u (P - 1) (Nat.le_refl _) (by omega) (by omega)]
    have hz : carrySum L.2.1 L.2.2 i u (P - 1) = 0 := by
      apply carrySum_zero L.2.1 L.2.2 i (P - 1 - u) u (P - 1) (Nat.le_refl _)
      intro t h1 h2
      rw [(tl5 t (by omega) (by omega)).1]
      have := hXmono (u + 1) (t + 1) (by omega)
      omega
    have hchain := carry_chain ro ci v x P X Y L.2.1 L.2.2 hX0 hY0 h0 hXmono hYmono hlo
      (fun t ht => (tl5 t (by omega) ht).1) (fun t ht => (tl5 t (by omega) ht).2)
      i u (by omega) hix.symm
    rw [hz, hchain]
    have hloi : ro i ≤ Y u := by
      have := hlo u (by omega)
      rw [← hix] at this
      exact this
    have hhii : Y u ≤ ro (i + 1) := by
      have := hhi u (by omega) (by omega)
      rw [← hix] at this
      exact this
    rw [partialSum_append v ci x (Y u - ro i) (ro i) (Y u) (ro (i + 1))
      (Nat.le_refl _) hloi hhii]
    ring
  · rw [hyi, if_neg hix]
    have hz : carrySum L.2.1 L.2.2 i 0 (P - 1) = 0 := by
      apply carrySum_zero L.2.1 L.2.2 i (P - 1) 0 (P - 1) (Nat.le_refl _)
      intro t h1 h2
      rw [(tl5 t (by omega) (by omega)).1]
      by_cases hc : t + 1 ≤ u
      · have := hXmono (t + 1) u hc
        omega
      · have := hXmono (u + 1) (t + 1) (by omega)
        omega
    rw [hz]
    ring

/-- Start coordinate of thread 0 of the produced partition. -/
theorem partition_starts_zero (P m nnz : Nat) (ro : Nat → Nat) :
    (ompMergePartitionMatrix P m nnz ro).1 0 = (0, 0) := by
  show mergePathSearch (startDiagonal P (m + nnz) 0) (fun i => ro (i + 1))
      (fun i => i) m nnz = (0, 0)
  rw [startDiagonal_zero]
  exact mergePathSearch_zero _ _ _ _

/-- The start coordinate indexed `P` (one past the last thread) is the top
corner `(m, nnz)`. -/
theorem partition_starts_last (P m nnz : Nat) (ro : Nat → Nat) (hP : 1 ≤ P) :
    (ompMergePartitionMatrix P m nnz ro).1 P = (m, nnz) := by
  show mergePathSearch (startDiagonal P (m + nnz) P) (fun i => ro (i + 1))
      (fun i => i) m nnz = (m, nnz)
  have hd : startDiagonal P (m + nnz) P = m + nnz := by
    have := itemsPerThread_mul_ge P (m + nnz) hP
    unfold startDiagonal
    omega
  rw [hd]
  exact mergePathSearch_top _ _ _ _

/-- The end coordinate of thread `t` is the start coordinate of thread
`t + 1`, for every `t`. -/
theorem partition_ends_eq (P m nnz : Nat) (ro : Nat → Nat) (t : Nat) :
    (ompMergePartitionMatrix P m nnz ro).2 t =
      (ompMergePartitionMatrix P m nnz ro).1 (t + 1) := by
  show mergePathSearch (endDiagonal P (m + nnz) t) (fun i => ro (i + 1))
      (fun i => i) m nnz =
    mergePathSearch (startDiagonal P (m + nnz) (t + 1)) (fun i => ro (i + 1))
      (fun i => i) m nnz
  rw [endDiagonal_eq_startDiagonal_succ]

/-- Path-coherence facts for each start coordinate of the partition. -/
theorem partition_starts_char (P m nnz : Nat) (ro : Nat → Nat)
    (hmono : ∀ i, i < m → ro i ≤ ro (i + 1)) (h0 : ro 0 = 0) (hm : ro m = nnz)
    (t : Nat) :
    ((ompMergePartitionMatrix P m nnz ro).1 t).1 ≤ m ∧
    ro ((ompMergePartitionMatrix P m nnz ro).1 t).1 ≤
      ((ompMergePartitionMatrix P m nnz ro).1 t).2 ∧
    (((ompMergePartitionMatrix P m nnz ro).1 t).1 < m →
      ((ompMergePartitionMatrix P m nnz ro).1 t).2 ≤
        ro (((ompMergePartitionMatrix P m nnz ro).1 t).1 + 1)) := by
  show (mergePathSearch (startDiagonal P (m + nnz) t) (fun i => ro (i + 1))
      (fun j => j) m nnz).1 ≤ m ∧
    ro (mergePathSearch (startDiagonal P (m + nnz) t) (fun i => ro (i + 1))
      (fun j => j) m nnz).1 ≤
      (mergePathSearch (startDiagonal P (m + nnz) t) (fun i => ro (i + 1))
        (fun j => j) m nnz).2 ∧
    ((mergePathSearch (startDiagonal P (m + nnz) t) (fun i => ro (i + 1))
        (fun j => j) m nnz).1 < m →
      (mergePathSearch (startDiagonal P (m + nnz) t) (fun i => ro (i + 1))
        (fun j => j) m nnz).2 ≤
        ro ((mergePathSearch (startDiagonal P (m + nnz) t) (fun i => ro (i + 1))
          (fun j => j) m nnz).1 + 1))
  have hd : startDiagonal P (m + nnz) t ≤ m + nnz := by
    unfold startDiagonal
    omega
  obtain ⟨hs, hlo, hhi, hy, hG, hmax⟩ :=
    mergePathSearch_char m nnz ro hmono h0 hm (startDiagonal P (m + nnz) t) hd
  have hupper := mergePathSearch_upper m nnz ro hmono h0 hm
    (startDiagonal P (m + nnz) t) hd
  exact ⟨by omega, by omega, hupper⟩

/-- Componentwise monotonicity of the start coordinates in the thread id. -/
theorem partition_starts_mono (P m nnz : Nat) (ro : Nat → Nat)
    (hmono : ∀ i, i < m → ro i ≤ ro (i + 1)) (h0 : ro 0 = 0) (hm : ro m = nnz)
    (s t : Nat) (hst : s ≤ t) :
    ((ompMergePartitionMatrix P m nnz ro).1 s).1 ≤
      ((ompMergePartitionMatrix P m nnz ro).1 t).1 ∧
    ((ompMergePartitionMatrix P m nnz ro).1 s).2 ≤
      ((ompMergePartitionMatrix P m nnz ro).1 t).2 := by
  have hq : itemsPerThread P (m + nnz) * s ≤ itemsPerThread P (m + nnz) * t :=
    Nat.mul_le_mul_left _ hst
  have h12 : startDiagonal P (m + nnz) s ≤ startDiagonal P (m + nnz) t := by
    unfold startDiagonal
    omega
  have hd2 : startDiagonal P (m + nnz) t ≤ m + nnz := by
    unfold startDiagonal
    omega
  exact mergePathSearch_mono m nnz ro hmono h0 hm _ _ h12 hd2

/-- `OmpMergeCsrmv` run on the partition produced by
`OmpMergePartitionMatrix` stores, under exact arithmetic, the exact row sum
into every row `i < m`, for arbitrary initial contents of the output vector
and of the carry arrays. -/
theorem ompMergeCsrmv_partition_at (P m nnz : Nat) (ro ci : Nat → Nat) (v x : Nat → ℚ)
    (y : Nat → ℚ) (rc0 : Nat → Nat) (vc0 : Nat → ℚ)
    (hmono : ∀ i, i < m → ro i ≤ ro (i + 1)) (h0 : ro 0 = 0)
    (hm : ro m = nnz) (hP : 1 ≤ P) (i : Nat) (hi : i < m) :
    ompMergeCsrmv (ompMergePartitionMatrix P m nnz ro).1
        (ompMergePartitionMatrix P m nnz ro).2 P m nnz ro ci v x y rc0 vc0 i =
      partialSum v ci x (ro i) (ro (i + 1)) := by
  refine ompMergeCsrmv_rowSum _ _ ro ci v x m nnz P
    (fun t => ((ompMergePartitionMatrix P m nnz ro).1 t).1)
    (fun t => ((ompMergePartitionMatrix P m nnz ro).1 t).2)
    y rc0 vc0 hmono h0 ?_ ?_ ?_ ?_ ?_ ?_ ?_ ?_ ?_ i hi
  · intro t _
    refine ⟨rfl, ?_⟩
    rw [partition_ends_eq]
  · show ((ompMergePartitionMatrix P m nnz ro).1 0).1 = 0
    rw [partition_starts_zero]
  · show ((ompMergePartitionMatrix P m nnz ro).1 0).2 = 0
    rw [partition_starts_zero]
  · show ((ompMergePartitionMatrix P m nnz ro).1 P).1 = m
    rw [partition_starts_last P m nnz ro hP]
  · intro s t hst
    exact (partition_starts_mono P m nnz ro hmono h0 hm s t hst).1
  · intro t
    exact (partition_starts_mono P m nnz ro hmono h0 hm t (t + 1) (by omega)).2
  · intro t _
    exact (partition_starts_char P m nnz ro hmono h0 hm t).1
  · intro t _
    exact (partition_starts_char P m nnz ro hmono h0 hm t).2.1
  · intro t _ hx
    exact (partition_starts_char P m nnz ro hmono h0 hm t).2.2 hx

/-- C1: for every well-formed CSR matrix, every `x`, and every thread count
`1 ≤ P ≤ 256`, `OmpMergeCsrmv` run on the partition produced by
`OmpMergePartitionMatrix` computes, under exact arithmetic, the same `y`
as the serial reference `SpmvGold` on every row, for arbitrary initial
contents of the output vector and of the carry arrays. -/
theorem merge_spmv_refines_gold (P m nnz : Nat) (ro ci : Nat → Nat) (v x : Nat → ℚ)
    (y y2 : Nat → ℚ) (rc0 : Nat → Nat) (vc0 : Nat → ℚ)
    (_hm1 : 1 ≤ m) (hmono : ∀ i, i < m → ro i ≤ ro (i + 1)) (h0 : ro 0 = 0)
    (hm : ro m = nnz) (hP : 1 ≤ P) (_hP2 : P ≤ 256) (i : Nat) (hi : i < m) :
    ompMergeCsrmv (ompMergePartitionMatrix P m nnz ro).1
        (ompMergePartitionMatrix P m nnz ro).2 P m nnz ro ci v x y rc0 vc0 i =
      spmvGold m ro ci v x y2 i := by
  rw [spmvGold_at m ro ci v x y2 i hi]
  exact ompMergeCsrmv_partition_at P m nnz ro ci v x y rc0 vc0 hmono h0 hm hP i hi

/-- Witness for C1: a concrete 2×2 matrix with P = 2 threads, row 1. -/
theorem merge_spmv_refines_gold_witness :
    ompMergeCsrmv (ompMergePartitionMatrix 2 2 2 (fun i => min i 2)).1
        (ompMergePartitionMatrix 2 2 2 (fun i => min i 2)).2 2 2 2
        (fun i => min i 2) (fun j => j) (fun _ => 3) (fun j => (j : ℚ) + 1)
        (fun _ => 5) (fun _ => 9) (fun _ => 7) 1 =
      spmvGold 2 (fun i => min i 2) (fun j => j) (fun _ => 3) (fun j => (j : ℚ) + 1)
        (fun _ => 11) 1 :=
  merge_spmv_refines_gold 2 2 2 (fun i => min i 2) (fun j => j) (fun _ => 3)
    (fun j => (j : ℚ) + 1) (fun _ => 5) (fun _ => 11) (fun _ => 9) (fun _ => 7)
    (by decide) (by decide) (by decide) (by decide) (by decide) (by decide)
    1 (by decide)

/-- C5: the serial fix-up loop of `OmpMergeCsrmv` runs over threads
`0 .. P-2` only: it never reads the last thread's carry slot (any two carry
arrays agreeing on `[0, P-1)` give the same result); it writes no index at
or above `m`; and it adds into each row `i < m` exactly the carry values of
threads `t < P-1` with `carry_row[t] = i` — each applied write is guarded
by `carry_row[t] < m`, so the out-of-bounds branch is never taken. -/
theorem fixup_props (P m : Nat) (rc rc2 : Nat → Nat) (vc vc2 : Nat → ℚ) (y : Nat → ℚ)
    (hagree : ∀ t, t < P - 1 → rc t = rc2 t ∧ vc t = vc2 t) :
    (∀ i, m ≤ i → fixupLoop m rc vc 0 (P - 1) y i = y i) ∧
    (fixupLoop m rc vc 0 (P - 1) y = fixupLoop m rc2 vc2 0 (P - 1) y) ∧
    (∀ i, i < m → fixupLoop m rc vc 0 (P - 1) y i =
      y i + carrySum rc vc i 0 (P - 1)) := by
  obtain ⟨f1, f2⟩ := fixupLoop_spec m rc vc (P - 1) 0 (P - 1) y (Nat.le_refl _)
  exact ⟨f1, fixupLoop_congr m rc rc2 vc vc2 (P - 1) 0 (P - 1) y (Nat.le_refl _)
    (fun t _ h2 => hagree t h2), f2⟩

/-- Witness for C5: the last carry slot of a 3-thread fix-up is ignored. -/
theorem fixup_props_witness :
    fixupLoop 2 (fun t => t) (fun _ => 1) 0 2 (fun _ => 0) =
      fixupLoop 2 (fun t => if t = 2 then 9 else t)
        (fun t => if t = 2 then 9 else 1) 0 2 (fun _ => 0) :=
  (fixup_props 3 2 (fun t => t) (fun t => if t = 2 then 9 else t) (fun _ => 1)
    (fun t => if t = 2 then 9 else 1) (fun _ => 0) (by decide)).2.1

/-- C7: after `OmpMergeCsrmv` on the produced partition, every row `i` with
`row_offsets[i] = row_offsets[i+1]` holds exactly zero, for every initial
content of `y` and of the carry arrays, including the case `nnz = 0`. -/
theorem merge_spmv_zero_rows (P m nnz : Nat) (ro ci : Nat → Nat) (v x : Nat → ℚ)
    (y : Nat → ℚ) (rc0 : Nat → Nat) (vc0 : Nat → ℚ)
    (_hm1 : 1 ≤ m) (hmono : ∀ i, i < m → ro i ≤ ro (i + 1)) (h0 : ro 0 = 0)
    (hm : ro m = nnz) (hP : 1 ≤ P) (_hP2 : P ≤ 256) (i : Nat) (hi : i < m)
    (hz : ro i = ro (i + 1)) :
    ompMergeCsrmv (ompMergePartitionMatrix P m nnz ro).1
        (ompMergePartitionMatrix P m nnz ro).2 P m nnz ro ci v x y rc0 vc0 i = 0 := by
  rw [ompMergeCsrmv_partition_at P m nnz ro ci v x y rc0 vc0 hmono h0 hm hP i hi]
  exact partialSum_empty v ci x _ _ (by omega)

/-- Witness for C7: the empty row 0 of a matrix whose two nonzeros both sit
in row 1 comes out exactly zero even from a dirty `y`. -/
theorem merge_spmv_zero_rows_witness :
    ompMergeCsrmv (ompMergePartitionMatrix 2 2 2 (fun i => if i ≤ 1 then 0 else 2)).1
        (ompMergePartitionMatrix 2 2 2 (fun i => if i ≤ 1 then 0 else 2)).2 2 2 2
        (fun i => if i ≤ 1 then 0 else 2) (fun j => j) (fun _ => 3)
        (fun j => (j : ℚ) + 1) (fun _ => 5) (fun _ => 9) (fun _ => 7) 0 = 0 :=
  merge_spmv_zero_rows 2 2 2 (fun i => if i ≤ 1 then 0 else 2) (fun j => j)
    (fun _ => 3) (fun j => (j : ℚ) + 1) (fun _ => 5) (fun _ => 9) (fun _ => 7)
    (by decide) (by decide) (by decide) (by decide) (by decide) (by decide)
    0 (by decide) (by decide)

/-- C8: the output rows of `OmpMergeCsrmv` on the produced partition are
independent of the prior contents of `y` (and of the scratch carry
arrays): every `y[i]`, `i < m`, is overwritten; consequently running the
kernel a second time into its own output reproduces it identically. -/
theorem merge_spmv_overwrites_y (P m nnz : Nat) (ro ci : Nat → Nat) (v x : Nat → ℚ)
    (y y2 : Nat → ℚ) (rc0 rc02 : Nat → Nat) (vc0 vc02 : Nat → ℚ)
    (_hm1 : 1 ≤ m) (hmono : ∀ i, i < m → ro i ≤ ro (i + 1)) (h0 : ro 0 = 0)
    (hm : ro m = nnz) (hP : 1 ≤ P) (_hP2 : P ≤ 256) (i : Nat) (hi : i < m) :
    ompMergeCsrmv (ompMergePartitionMatrix P m nnz ro).1
        (ompMergePartitionMatrix P m nnz ro).2 P m nnz ro ci v x y rc0 vc0 i =
      ompMergeCsrmv (ompMergePartitionMatrix P m nnz ro).1
        (ompMergePartitionMatrix P m nnz ro).2 P m nnz ro ci v x y2 rc02 vc02 i ∧
    ompMergeCsrmv (ompMergePartitionMatrix P m nnz ro).1
        (ompMergePartitionMatrix P m nnz ro).2 P m nnz ro ci v x
        (ompMergeCsrmv (ompMergePartitionMatrix P m nnz ro).1
          (ompMergePartitionMatrix P m nnz ro).2 P m nnz ro ci v x y rc0 vc0)
        rc0 vc0 i =
      ompMergeCsrmv (ompMergePartitionMatrix P m nnz ro).1
        (ompMergePartitionMatrix P m nnz ro).2 P m nnz ro ci v x y rc0 vc0 i := by
  constructor
  · rw [ompMergeCsrmv_partition_at P m nnz ro ci v x y rc0 vc0 hmono h0 hm hP i hi,
      ompMergeCsrmv_partition_at P m nnz ro ci v x y2 rc02 vc02 hmono h0 hm hP i hi]
  · rw [ompMergeCsrmv_partition_at P m nnz ro ci v x y rc0 vc0 hmono h0 hm hP i hi,
      ompMergeCsrmv_partition_at P m nnz ro ci v x _ rc0 vc0 hmono h0 hm hP i hi]

/-- Witness for C8: two different initial vectors give the same output row. -/
theorem merge_spmv_overwrites_y_witness :
    ompMergeCsrmv (ompMergePartitionMatrix 2 2 2 (fun i => min i 2)).1
        (ompMergePartitionMatrix 2 2 2 (fun i => min i 2)).2 2 2 2
        (fun i => min i 2) (fun j => j) (fun _ => 3) (fun j => (j : ℚ) + 1)
        (fun _ => 5) (fun _ => 9) (fun _ => 7) 0 =
      ompMergeCsrmv (ompMergePartitionMatrix 2 2 2 (fun i => min i 2)).1
        (ompMergePartitionMatrix 2 2 2 (fun i => min i 2)).2 2 2 2
        (fun i => min i 2) (fun j => j) (fun _ => 3) (fun j => (j : ℚ) + 1)
        (fun _ => 100) (fun _ => 4) (fun _ => 2) 0 :=
  (merge_spmv_overwrites_y 2 2 2 (fun i => min i 2) (fun j => j) (fun _ => 3)
    (fun j => (j : ℚ) + 1) (fun _ => 5) (fun _ => 100) (fun _ => 9) (fun _ => 4)
    (fun _ => 7) (fun _ => 2) (by decide) (by decide) (by decide) (by decide)
    (by decide) (by decide) 0 (by decide)).1

/-- The checked inner loop succeeds, computing the unchecked result, as
soon as its upper offset is within `nnz`. -/
theorem innerLoopChk_eq (nnz : Nat) (v : Nat → ℚ) (ci : Nat → Nat) (x : Nat → ℚ) :
    ∀ fuel cy hi acc, hi - cy ≤ fuel → hi ≤ nnz →
      innerLoopChk nnz v ci x cy hi acc = some (innerLoop v ci x cy hi acc) := by
  intro fuel
  induction fuel with
  | zero =>
    intro cy hi acc hf hn
    rw [innerLoopChk, if_neg (by omega), innerLoop, if_neg (by omega)]
  | succ n ih =>
    intro cy hi acc hf hn
    by_cases hlt : cy < hi
    · rw [innerLoopChk, if_pos hlt, readQ, if_pos (by omega), readN, if_pos (by omega)]
      rw [innerLoop, if_pos hlt]
      show innerLoopChk nnz v ci x (cy + 1) hi (acc + v cy * x (ci cy)) = _
      exact ih (cy + 1) hi _ (by omega) hn
    · rw [innerLoopChk, if_neg hlt, innerLoop, if_neg hlt]

/-- The checked whole-rows loop succeeds when the end row is within `m` and
all row ends are within `nnz`. -/
theorem consumeRowsChk_eq (nnz m : Nat) (ro : Nat → Nat) (ci : Nat → Nat)
    (v x : Nat → ℚ) (hro : ∀ c, c < m → ro (c + 1) ≤ nnz) :
    ∀ fuel cx ex cy y, ex - cx ≤ fuel → ex ≤ m →
      consumeRowsChk nnz m ro ci v x cx ex cy y =
        some (consumeRows ro ci v x cx ex cy y) := by
  intro fuel
  induction fuel with
  | zero =>
    intro cx ex cy y hf hex
    rw [consumeRowsChk, if_neg (by omega), consumeRows, if_neg (by omega)]
  | succ n ih =>
    intro cx ex cy y hf hex
    by_cases hlt : cx < ex
    · conv_rhs => rw [consumeRows]
      rw [if_pos hlt, consumeRowsChk, if_pos hlt,
        innerLoopChk_eq nnz v ci x (ro (cx + 1) - cy) cy (ro (cx + 1)) 0
          (Nat.le_refl _) (hro cx (by omega))]
      show (writeQ m y cx (innerLoop v ci x cy (ro (cx + 1)) 0).1).bind
          (fun y2 => consumeRowsChk nnz m ro ci v x (cx + 1) ex
            (innerLoop v ci x cy (ro (cx + 1)) 0).2 y2) = _
      rw [writeQ, if_pos (by omega)]
      show consumeRowsChk nnz m ro ci v x (cx + 1) ex
          (innerLoop v ci x cy (ro (cx + 1)) 0).2
          (upd y cx (innerLoop v ci x cy (ro (cx + 1)) 0).1) = _
      exact ih (cx + 1) ex _ _ (by omega) hex
    · rw [consumeRowsChk, if_neg hlt, consumeRows, if_neg hlt]

/-- The checked thread body succeeds under the per-thread coordinate
bounds. -/
theorem threadBodyChk_eq (nnz m : Nat) (ro : Nat → Nat) (ci : Nat → Nat)
    (v x : Nat → ℚ) (hro : ∀ c, c < m → ro (c + 1) ≤ nnz) (tc tce : Nat × Nat)
    (y : Nat → ℚ) (hex : tce.1 ≤ m) (hey : tce.2 ≤ nnz) :
    threadBodyChk nnz m ro ci v x tc tce y = some (threadBody ro ci v x tc tce y) := by
  rw [threadBodyChk,
    consumeRowsChk_eq nnz m ro ci v x hro (tce.1 - tc.1) tc.1 tce.1 tc.2 y
      (Nat.le_refl _) hex]
  show (innerLoopChk nnz v ci x (consumeRows ro ci v x tc.1 tce.1 tc.2 y).2
      tce.2 0).bind (fun t => some ((consumeRows ro ci v x tc.1 tce.1 tc.2 y).1,
        tce.1, t.1)) = _
  rw [innerLoopChk_eq nnz v ci x (tce.2 - (consumeRows ro ci v x tc.1 tce.1 tc.2 y).2)
    _ tce.2 0 (Nat.le_refl _) hey]
  rfl

/-- The checked thread loop succeeds for `P ≤ 256` threads under the
partition bounds, computing the unchecked state. -/
theorem threadsLoopChk_eq (tcs tces : Nat → Nat × Nat) (nnz m : Nat)
    (ro : Nat → Nat) (ci : Nat → Nat) (v x : Nat → ℚ) (P : Nat)
    (hro : ∀ c, c < m → ro (c + 1) ≤ nnz) (hP256 : P ≤ 256)
    (hinv : ∀ t, t < P → (tces t).1 ≤ m ∧ (tces t).2 ≤ nnz) :
    ∀ fuel tid y rc vc, P - tid ≤ fuel →
      threadsLoopChk tcs tces nnz m ro ci v x tid P y rc vc =
        some (threadsLoop tcs tces ro ci v x tid P y rc vc) := by
  intro fuel
  induction fuel with
  | zero =>
    intro tid y rc vc hf
    rw [threadsLoopChk, if_neg (by omega), threadsLoop, if_neg (by omega)]
  | succ n ih =>
    intro tid y rc vc hf
    by_cases hlt : tid < P
    · conv_rhs => rw [threadsLoop]
      rw [if_pos hlt, threadsLoopChk, if_pos hlt,
        threadBodyChk_eq nnz m ro ci v x hro (tcs tid) (tces tid) y
          (hinv tid hlt).1 (hinv tid hlt).2]
      show (if tid < 256 then threadsLoopChk tcs tces nnz m ro ci v x (tid + 1) P
          (threadBody ro ci v x (tcs tid) (tces tid) y).1
          (upd rc tid (threadBody ro ci v x (tcs tid) (tces tid) y).2.1)
          (upd vc tid (threadBody ro ci v x (tcs tid) (tces tid) y).2.2)
        else none) = _
      rw [if_pos (by omega : tid < 256)]
      exact ih (tid + 1) _ _ _ (by omega)
    · rw [threadsLoopChk, if_neg hlt, threadsLoop, if_neg hlt]

/-- The checked fix-up loop succeeds when its bound is at most 256. -/
theorem fixupLoopChk_eq (m : Nat) (rc : Nat → Nat) (vc : Nat → ℚ) :
    ∀ fuel tid tlast y, tlast - tid ≤ fuel → tlast ≤ 256 →
      fixupLoopChk m rc vc tid tlast y = some (fixupLoop m rc vc tid tlast y) := by
  intro fuel
  induction fuel with
  | zero =>
    intro tid tlast y hf h256
    rw [fixupLoopChk, if_neg (by omega), fixupLoop, if_neg (by omega)]
  | succ n ih =>
    intro tid tlast y hf h256
    by_cases hlt : tid < tlast
    · conv_rhs => rw [fixupLoop]
      rw [if_pos hlt, fixupLoopChk, if_pos hlt, if_pos (by omega : tid < 256)]
      exact ih (tid + 1) tlast _ (by omega) h256
    · rw [fixupLoopChk, if_neg hlt, fixupLoop, if_neg hlt]

/-- The checked thread loop fails once thread id 256 is reached, which
happens whenever `P ≥ 257`. -/
theorem threadsLoopChk_none (tcs tces : Nat → Nat × Nat) (nnz m : Nat)
    (ro : Nat → Nat) (ci : Nat → Nat) (v x : Nat → ℚ) (P : Nat) (hP : 257 ≤ P) :
    ∀ fuel tid y rc vc, 257 - tid ≤ fuel → tid ≤ 256 →
      threadsLoopChk tcs tces nnz m ro ci v x tid P y rc vc = none := by
  intro fuel
  induction fuel with
  | zero =>
    intro tid y rc vc hf htid
    omega
  | succ n ih =>
    intro tid y rc vc hf htid
    rw [threadsLoopChk, if_pos (by omega : tid < P)]
    cases hb : threadBodyChk nnz m ro ci v x (tcs tid) (tces tid) y with
    | none => rfl
    | some r =>
      show (if tid < 256 then threadsLoopChk tcs tces nnz m ro ci v x (tid + 1) P
          r.1 (upd rc tid r.2.1) (upd vc tid r.2.2) else none) = none
      by_cases h256 : tid < 256
      · rw [if_pos h256]
        exact ih (tid + 1) _ _ _ (by omega) (by omega)
      · rw [if_neg h256]

/-- C6: `OmpMergeCsrmv` keeps its carry-outs in fixed 256-slot stack arrays
indexed by thread id.  For `1 ≤ P ≤ 256` — and only under that cap — every
access is in bounds: under the partition invariants
(`start[t].x ≤ end[t].x ≤ m`, `start[t].y ≤ end[t].y ≤ nnz`) and CSR
well-formedness, the bounds-checked kernel succeeds and computes the
unchecked result, all `y` stores landing in `[0, m)` and all
`values` / `column_indices` reads in `[0, nnz)`; whereas for `P ≥ 257` the
checked kernel always reports an out-of-bounds access. -/
theorem merge_kernel_safety (tcs tces : Nat → Nat × Nat) (P m nnz : Nat)
    (ro ci : Nat → Nat) (v x : Nat → ℚ) (y : Nat → ℚ) (rc0 : Nat → Nat)
    (vc0 : Nat → ℚ) :
    (1 ≤ P → P ≤ 256 → (∀ i, i < m → ro i ≤ ro (i + 1)) → ro m = nnz →
      (∀ t, t < P → (tcs t).1 ≤ (tces t).1 ∧ (tces t).1 ≤ m ∧
        (tcs t).2 ≤ (tces t).2 ∧ (tces t).2 ≤ nnz) →
      ompMergeCsrmvChk tcs tces P m nnz ro ci v x y rc0 vc0 =
        some (ompMergeCsrmv tcs tces P m nnz ro ci v x y rc0 vc0)) ∧
    (257 ≤ P →
      ompMergeCsrmvChk tcs tces P m nnz ro ci v x y rc0 vc0 = none) := by
  constructor
  · intro hP h256 hmono hm hinv
    have hro : ∀ c, c < m → ro (c + 1) ≤ nnz := by
      intro c hc
      have h2 := ro_mono_of_local hmono m (Nat.le_refl m) (c + 1) (by omega)
      omega
    rw [ompMergeCsrmvChk,
      threadsLoopChk_eq tcs tces nnz m ro ci v x P hro h256
        (fun t ht => ⟨(hinv t ht).2.1, (hinv t ht).2.2.2⟩) P 0 y rc0 vc0
        (Nat.le_refl _)]
    show fixupLoopChk m (threadsLoop tcs tces ro ci v x 0 P y rc0 vc0).2.1
        (threadsLoop tcs tces ro ci v x 0 P y rc0 vc0).2.2 0 (P - 1)
        (threadsLoop tcs tces ro ci v x 0 P y rc0 vc0).1 = _
    rw [fixupLoopChk_eq m _ _ (P - 1) 0 (P - 1) _ (Nat.le_refl _) (by omega)]
    rfl
  · intro hP
    rw [ompMergeCsrmvChk,
      threadsLoopChk_none tcs tces nnz m ro ci v x P hP 257 0 y rc0 vc0
        (by omega) (by omega)]
    rfl

/-- Witness for C6: the checked kernel succeeds on a 1×1 matrix at P = 1
and fails at P = 300 on the same input. -/
theorem merge_kernel_safety_witness :
    (ompMergeCsrmvChk (fun _ => (0, 0)) (fun _ => (1, 1)) 1 1 1
        (fun i => min i 1) (fun _ => 0) (fun _ => 2) (fun _ => 3) (fun _ => 0)
        (fun _ => 0) (fun _ => 0) =
      some (ompMergeCsrmv (fun _ => (0, 0)) (fun _ => (1, 1)) 1 1 1
        (fun i => min i 1) (fun _ => 0) (fun _ => 2) (fun _ => 3) (fun _ => 0)
        (fun _ => 0) (fun _ => 0))) ∧
    (ompMergeCsrmvChk (fun _ => (0, 0)) (fun _ => (1, 1)) 300 1 1
        (fun i => min i 1) (fun _ => 0) (fun _ => 2) (fun _ => 3) (fun _ => 0)
        (fun _ => 0) (fun _ => 0) = none) :=
  ⟨(merge_kernel_safety (fun _ => (0, 0)) (fun _ => (1, 1)) 1 1 1
      (fun i => min i 1) (fun _ => 0) (fun _ => 2) (fun _ => 3) (fun _ => 0)
      (fun _ => 0) (fun _ => 0)).1 (by decide) (by decide) (by decide) (by decide)
      (by decide),
   (merge_kernel_safety (fun _ => (0, 0)) (fun _ => (1, 1)) 300 1 1
      (fun i => min i 1) (fun _ => 0) (fun _ => 2) (fun _ => 3) (fun _ => 0)
      (fun _ => 0) (fun _ => 0)).2 (by decide)⟩

/-- C9 counterexample: the claim asserts the driver reports a trivial
dataset whenever `m ≤ 1 ∨ n ≤ 1 ∨ nnz ≤ 1`; but on a loaded matrix with
`m = 2`, `n = 2`, `nnz = 0` (which satisfies `nnz ≤ 1`) the source's check
`num_rows == 1 || num_cols == 1 || num_nonzeros == 1` is false and the
driver runs the benchmarks. -/
theorem trivial_dataset_counterexample :
    ((0 : Int) ≤ 1) ∧ runTestsMtxDispatch 2 2 0 = DriverStep.runBenchmarks := by
  constructor
  · decide
  · rw [runTestsMtxDispatch, if_neg (by omega)]

/-- C9 (amended): for every matrix loaded from a matrix-market file with
`m = 1` or `n = 1` or `nnz = 1` (equality, not `≤`), the driver reports a
trivial dataset and exits with code 0 instead of running the benchmark
kernels. -/
theorem trivial_dataset_dispatch (m n z : Int) (h : m = 1 ∨ n = 1 ∨ z = 1) :
    runTestsMtxDispatch m n z = DriverStep.trivialExit := by
  rw [runTestsMtxDispatch, if_pos h]

/-- Witness for the amended C9 on a 1-row matrix. -/
theorem trivial_dataset_dispatch_witness :
    runTestsMtxDispatch 1 5 7 = DriverStep.trivialExit :=
  trivial_dataset_dispatch 1 5 7 (Or.inl rfl)

end MergeSpmv
